import Mathlib

/-!
# Verification of the Memory Bank starter utilities

A shallow embedding of the Node.js utilities of this repository
(`init-memory-bank.js`, which bundles the scaffolder together with the
generated `memory-search.js`, `memory-browse.js` and `memory-update.js`
scripts) and proofs about them.

Modelling conventions:
  * A directory tree is the inductive `Entry` below; the order of a
    directory's entry list models the enumeration order of
    `fs.readdirSync`.
  * JavaScript strings are modelled by Lean `String` / `List Char`.
    The JS operations used by the scripts (`split`, `trim`,
    `toLowerCase`, `includes`, `startsWith`, `endsWith`, `replace`) are
    reimplemented below on `List Char` with their ECMAScript semantics
    restricted to ASCII text (the scripts and all inputs considered
    here are ASCII; astral/Unicode case folding is not modelled).
  * Fallible filesystem operations (e.g. `fs.readFileSync` applied to a
    directory) are modelled with `Option`; `none` models a thrown
    exception.
-/

namespace MemoryBank

/-! ## JavaScript string primitives -/

/-- The ECMAScript whitespace class `\s` restricted to ASCII
(space, tab, line feed, vertical tab, form feed, carriage return). -/
def jsWs (c : Char) : Bool :=
  c = ' ' || c = '\t' || c = '\n' || c = '\r' || c = '\x0b' || c = '\x0c'

/-- `String.prototype.toLowerCase` on ASCII text (`Char.toLower` lowers
exactly the ASCII uppercase letters). -/
def jsLowerL (s : List Char) : List Char := s.map Char.toLower

/-- `String.prototype.trim` on ASCII text: strip `\s` characters from
both ends. -/
def jsTrimL (s : List Char) : List Char :=
  ((s.dropWhile jsWs).reverse.dropWhile jsWs).reverse

/-- `String.prototype.split(sep)` for a single-character separator:
every maximal separator-free segment, empty segments preserved. -/
def splitOnCharL (sep : Char) : List Char → List (List Char)
  | [] => [[]]
  | c :: rest =>
    if c = sep then [] :: splitOnCharL sep rest
    else
      match splitOnCharL sep rest with
      | l :: ls => (c :: l) :: ls
      | [] => [[c]]

/-- `content.split('\n')`. -/
def splitNl (s : List Char) : List (List Char) := splitOnCharL '\n' s

/-- `String.prototype.startsWith` (the built-in `String.startsWith` is
not used because it does not reduce inside the kernel). -/
def strStartsWith (s pat : String) : Bool := pat.data.isPrefixOf s.data

/-- `String.prototype.endsWith`. -/
def strEndsWith (s suf : String) : Bool := suf.data.isSuffixOf s.data

/-- Contiguous-substring test on character lists. -/
def isInfixOfL (sub : List Char) : List Char → Bool
  | [] => sub.isEmpty
  | c :: cs => sub.isPrefixOf (c :: cs) || isInfixOfL sub cs

/-- `String.prototype.includes` (`''.includes` is always true,
matching JS). -/
def jsIncludesL (s sub : List Char) : Bool := isInfixOfL sub s

/-- `String.prototype.replace(pat, rep)` with a plain-string pattern:
replace only the first occurrence of `pat` (used by the indexer's
`file.replace('.md', '')` title fallback). -/
def replaceFirstL (pat rep : List Char) : List Char → List Char
  | [] => []
  | c :: cs =>
    if pat.isPrefixOf (c :: cs) then rep ++ (c :: cs).drop pat.length
    else c :: replaceFirstL pat rep cs

/-- The backquote character, `$`-escape for the text before the
match. -/
def backquoteChar : Char := Char.ofNat 96

/-- The single-quote character, `$`-escape for the text after the
match. -/
def singleQuoteChar : Char := Char.ofNat 39

/-- ECMAScript `GetSubstitution` for a string replacement value:
`$$` emits `$`, `$&` the matched text `m`, `` $` `` the part `b` of the
original string before the match, `$'` the part `a` after it.  The
scaffolder's patterns are `escapeRegExp`-escaped literals, so the regex
has no capture groups and no named groups: `$1`…`$99` and `$<` have no
valid referent and are kept literally (which a literal `$` followed by
a rescan of the next character reproduces exactly). -/
def getSubstitution (m b a : List Char) : List Char → List Char
  | [] => []
  | [x] => [x]
  | x :: c :: rest =>
    if x = '$' then
      if c = '$' then '$' :: getSubstitution m b a rest
      else if c = '&' then m ++ getSubstitution m b a rest
      else if c = backquoteChar then b ++ getSubstitution m b a rest
      else if c = singleQuoteChar then a ++ getSubstitution m b a rest
      else x :: getSubstitution m b a (c :: rest)
    else x :: getSubstitution m b a (c :: rest)

/-- Worker for global literal-pattern replacement.  `skip` counts
characters of an already-replaced match that still have to be consumed
before scanning resumes (ECMAScript `lastIndex` semantics: the
replacement is not rescanned), `pos` is the index in the original
string `orig` of the head of the remaining input, so each match can
expand its replacement template `tmpl` with the original text around
the match (`GetSubstitution` receives the untouched input string). -/
def replaceAllAux (p : Char) (ps tmpl orig : List Char) :
    Nat → Nat → List Char → List Char
  | _, _, [] => []
  | k + 1, pos, _ :: cs => replaceAllAux p ps tmpl orig k (pos + 1) cs
  | 0, pos, c :: cs =>
    if (p :: ps).isPrefixOf (c :: cs) then
      getSubstitution (p :: ps) (orig.take pos)
          (orig.drop (pos + (p :: ps).length)) tmpl ++
        replaceAllAux p ps tmpl orig ps.length (pos + 1) cs
    else c :: replaceAllAux p ps tmpl orig 0 (pos + 1) cs

/-- `String.prototype.replace(regexp, tmpl)` where `regexp` is a
`g`-flagged escaped literal with nonempty pattern `p :: ps`: replace
every occurrence, scanning left to right without rescanning the
replacement, expanding `$`-escapes in `tmpl` against the original
string `s`. -/
def replaceAllL (p : Char) (ps tmpl : List Char) (s : List Char) : List Char :=
  replaceAllAux p ps tmpl s 0 0 s

/-- The empty-pattern case of a global replace: the regex matches the
empty string at every position `i`, so the expanded template (with
empty match, `before = s.take i`, `after = s.drop i`) is inserted
between all characters and at both ends.  `before` accumulates the
consumed prefix. -/
def emptyPatSubst (tmpl : List Char) : List Char → List Char → List Char
  | before, [] => getSubstitution [] before [] tmpl
  | before, c :: cs =>
    getSubstitution [] before (c :: cs) tmpl ++
      c :: emptyPatSubst tmpl (before ++ [c]) cs

/-- `content.replace(new RegExp(escapeRegExp(pat), 'g'), rep)` on
strings.  `escapeRegExp` (init-memory-bank.js lines 229-231) escapes
every regex metacharacter, so the pattern matches exactly the literal
`pat`; the replacement value is a string, so its `$`-escapes are
expanded per match (`GetSubstitution`).  All placeholder patterns used
by the scaffolder are nonempty; the empty-pattern branch is the JS
empty-regex semantics. -/
def jsReplaceAll (pat rep s : String) : String :=
  match pat.data with
  | [] => ⟨emptyPatSubst rep.data [] s.data⟩
  | p :: ps => ⟨replaceAllL p ps rep.data s.data⟩

/-- Specialization of `replaceAllAux` for a template without `$`:
every match inserts the template verbatim, so neither the original
string nor the match position matters.  Proof-side device; the bridge
to the real worker is `replaceAllAux_eq_lit`. -/
def replaceLitAux (p : Char) (ps rep : List Char) : Nat → List Char → List Char
  | _, [] => []
  | k + 1, _ :: cs => replaceLitAux p ps rep k cs
  | 0, c :: cs =>
    if (p :: ps).isPrefixOf (c :: cs) then
      rep ++ replaceLitAux p ps rep ps.length cs
    else c :: replaceLitAux p ps rep 0 cs

/-- `replaceAllL` specialized to a `$`-free template. -/
def replaceLitL (p : Char) (ps rep : List Char) (s : List Char) : List Char :=
  replaceLitAux p ps rep 0 s

/-- Relative-path join as produced by `path.join`/`path.relative` on
POSIX: the root is represented by `""` and deeper levels are joined
with `/` (mirrors the indexer's `category ? category + '/' + file :
file`). -/
def pathJoin (pre name : String) : String :=
  if pre = "" then name else pre ++ "/" ++ name

/-! ## The directory-tree model -/

/-- One filesystem entry: a regular file with its text content, or a
directory with its children in `fs.readdirSync` order. -/
inductive Entry where
  | file (name content : String)
  | dir (name : String) (entries : List Entry)

/-- The name of an entry. -/
def Entry.name : Entry → String
  | .file n _ => n
  | .dir n _ => n

/-- `String.prototype.toLowerCase` packaged on `String`. -/
def jsLower (s : String) : String := ⟨jsLowerL s.data⟩

/-! ## The search tool (`memory-search.js`, init-memory-bank.js lines 129-163) -/

/-- One search hit: relative file path, 1-based line number, trimmed
line text. -/
structure Match where
  file : String
  line : Nat
  content : String
deriving DecidableEq, Repr

/-- The `lines.forEach((line, index) => ...)` loop of `searchInFile`:
`i` is the 0-based index of the first line of `ls`. -/
def searchLines (relfile : String) (term : String) : Nat → List (List Char) → List Match
  | _, [] => []
  | i, line :: rest =>
    (if jsIncludesL (jsLowerL line) (jsLowerL term.data) then
      [⟨relfile, i + 1, ⟨jsTrimL line⟩⟩]
    else []) ++ searchLines relfile term (i + 1) rest

/-- `searchInFile(filePath, term)`: split the content on `'\n'` and
collect the case-insensitively matching lines. -/
def searchInFile (relfile content term : String) : List Match :=
  searchLines relfile term 0 (splitNl content.data)

mutual

/-- One iteration of `searchDirectory`'s `files.forEach`: recurse into
non-hidden directories, scan regular files ending in `.md`.  `pre` is
the path of the enclosing directory relative to the memory-bank root
(`""` at the root). -/
def searchEntry (term pre : String) : Entry → List Match
  | .dir name sub =>
    if strStartsWith name "." then [] else searchEntries term (pathJoin pre name) sub
  | .file name content =>
    if strEndsWith name ".md" then searchInFile (pathJoin pre name) content term else []

/-- `searchDirectory(dir, term)` over a directory's entry list. -/
def searchEntries (term pre : String) : List Entry → List Match
  | [] => []
  | e :: rest => searchEntry term pre e ++ searchEntries term pre rest

end

/-! ## The browse tool (`memory-browse.js`, init-memory-bank.js lines 239-278) -/

mutual

/-- One iteration of `browseDirectory`'s loop: every directory (hidden
ones included) gets a folder-header line and is recursed into with the
indent grown by two spaces; each `.md` file gets a leaf line. -/
def browseEntry (indent : String) : Entry → List String
  | .dir name sub =>
    (indent ++ "📁 " ++ name ++ "/") :: browseEntries (indent ++ "  ") sub
  | .file name _ =>
    if strEndsWith name ".md" then [indent ++ "📄 " ++ name] else []

/-- `browseDirectory(dir, indent)`: the printed lines, in order. -/
def browseEntries (indent : String) : List Entry → List String
  | [] => []
  | e :: rest => browseEntry indent e ++ browseEntries indent rest

end

/-- Outcome of one run of the browse tool: stdout lines, stderr lines,
process exit code. -/
structure BrowseRun where
  out : List String
  err : List String
  exit : Nat
deriving DecidableEq, Repr

/-- First entry with the given name (`fs.existsSync` / path lookup). -/
def findEntry (es : List Entry) (n : String) : Option Entry :=
  es.find? (fun e => e.name = n)

/-- Does an entry with this name exist (`fs.existsSync`)? -/
def hasEntry (es : List Entry) (n : String) : Bool :=
  es.any (fun e => e.name = n)

/-- The no-argument branch of the browse tool: usage text plus the
top-level directories (hidden ones included) of the memory-bank root,
exit code 1. -/
def browseUsage (root : List Entry) : BrowseRun :=
  ⟨["Usage: npm run memory:browse <category>", "\nAvailable categories:"] ++
     root.filterMap (fun e =>
       match e with
       | .dir n _ => some ("  - " ++ n)
       | .file _ _ => none),
   [], 1⟩

/-- The whole browse tool run on `process.argv[2]` (`none` = argument
absent; the empty string is falsy in JS and also takes the usage
branch).  Result `none` models an uncaught exception (`readdirSync` on
a regular file). -/
def browseMain (root : List Entry) (arg : Option String) : Option BrowseRun :=
  match arg with
  | none => some (browseUsage root)
  | some category =>
    if category = "" then some (browseUsage root)
    else
      match findEntry root category with
      | none => some ⟨[], ["Category '" ++ category ++ "' not found"], 1⟩
      | some (.file _ _) => none
      | some (.dir _ sub) =>
        some ⟨("\n📂 Browsing: " ++ category ++ "\n") ::
                browseEntries "" sub ++
                ["\n✨ Use memory:search to search within files"],
              [], 0⟩

/-! ## Metadata extraction (`memory-update.js`, init-memory-bank.js lines 336-359)

The three regexes of `extractMetadata` are compiled to explicit
scanners with exact ECMAScript semantics:
  * title: `content.match(/^#\s+(.+)$/m)` — at each line start, `#`,
    then a greedy run of `\s` (which may cross a newline), backtracking
    so that `(.+)` still gets at least one non-newline character, the
    group running to the end of that line;
  * tags: `content.match(/tags:\s*\[([^\]]+)\]/)` — at any position;
  * summary: `content.match(/^(?!#)([^\n]+)/m)` — the first nonempty
    line not starting with `#`. -/

/-- Backtracking for the `\s+(.+)$` tail of the title regex: `rest` is
the text after the `#`; try consuming `l` whitespace characters for
`l = k, k-1, ..., 1` and give `(.+)$` (greedy to the end of the line)
whatever follows. -/
def titleBacktrack (rest : List Char) : Nat → Option (List Char)
  | 0 => none
  | l + 1 =>
    match rest.drop (l + 1) with
    | [] => titleBacktrack rest l
    | c :: cs =>
      if c = '\n' then titleBacktrack rest l
      else some (c :: cs.takeWhile (fun d => decide (d ≠ '\n')))

/-- Try `^#\s+(.+)$` at one line-start position. -/
def titleAt : List Char → Option (List Char)
  | '#' :: rest => titleBacktrack rest (rest.takeWhile jsWs).length
  | _ => none

/-- Scan for the first (leftmost) match of `/^#\s+(.+)$/m`: `atStart`
records whether the current position is a line start (position 0 or
just after a `'\n'`); the `^` anchor only lets line starts match. -/
def findTitleAux : Bool → List Char → Option (List Char)
  | _, [] => none
  | atStart, c :: cs =>
    match (if atStart then titleAt (c :: cs) else none) with
    | some g => some g
    | none => findTitleAux (decide (c = '\n')) cs

/-- Try `tags:\s*\[([^\]]+)\]` at one position: literal `tags:`, any
run of whitespace, `[`, at least one non-`]` character (greedily up to
the first `]`), then `]`. -/
def tagsAt (s : List Char) : Option (List Char) :=
  if "tags:".data.isPrefixOf s then
    match (s.drop 5).dropWhile jsWs with
    | '[' :: r =>
      let g := r.takeWhile (fun d => decide (d ≠ ']'))
      if g.isEmpty then none
      else if (r.drop g.length).head? = some ']' then some g else none
    | _ => none
  else none

/-- Scan for the first match of the (unanchored) tags regex. -/
def findTags : List Char → Option (List Char)
  | [] => none
  | c :: cs =>
    match tagsAt (c :: cs) with
    | some g => some g
    | none => findTags cs

/-- `tagsMatch[1].split(',').map(t => t.trim())`. -/
def parseTags (g : List Char) : List String :=
  (splitOnCharL ',' g).map (fun t => ⟨jsTrimL t⟩)

/-- Scan for the first match of `/^(?!#)([^\n]+)/m`: the first line
that is nonempty and does not begin with `#`; the group is the whole
line. -/
def findSummaryAux : Bool → List Char → Option (List Char)
  | _, [] => none
  | atStart, c :: cs =>
    if atStart && !(c = '#') && !(c = '\n') then
      some (c :: cs.takeWhile (fun d => decide (d ≠ '\n')))
    else findSummaryAux (decide (c = '\n')) cs

/-- The record built by `extractMetadata` (defaults `''`/`[]`/`''`). -/
structure Metadata where
  title : String
  tags : List String
  summary : String
deriving DecidableEq, Repr

/-- `extractMetadata(content)` (init-memory-bank.js lines 336-359). -/
def extractMetadata (content : String) : Metadata :=
  { title := match findTitleAux true content.data with
             | some g => ⟨g⟩
             | none => ""
    tags := match findTags content.data with
            | some g => parseTags g
            | none => []
    summary := match findSummaryAux true content.data with
               | some g => ⟨g⟩
               | none => "" }

/-! ## The indexer (`memory-update.js`, init-memory-bank.js lines 283-365) -/

/-- One value of the `index.files` mapping. -/
structure IndexEntry where
  category : String
  size : Nat
  modified : Nat
  title : String
  tags : List String
  summary : String
deriving DecidableEq, Repr

/-- The whole index document.  The association lists keep JS object
insertion order (`JSON.stringify` serializes string keys in insertion
order). -/
structure Index where
  updated : String
  files : List (String × IndexEntry)
  categories : List (String × List String)
  tags : List (String × List String)
deriving DecidableEq, Repr

/-- `obj[k].push(v)`: append `v` to the value of the first entry with
key `k`.  The indexer only pushes to keys it has already created
(`index.categories[subCategory] = []` runs before the recursion), so
the key is always present; a missing key (which would be a JS
`TypeError`) is modelled as a no-op. -/
def pushAssoc (l : List (String × List String)) (k v : String) :
    List (String × List String) :=
  match l with
  | [] => []
  | (k2, vs) :: rest =>
    if k2 = k then (k2, vs ++ [v]) :: rest else (k2, vs) :: pushAssoc rest k v

/-- `if (!obj[k]) obj[k] = []; obj[k].push(v)` for the tags mapping
(prototype-inherited keys such as `"toString"` are not modelled). -/
def upsertPush (l : List (String × List String)) (k v : String) :
    List (String × List String) :=
  if l.any (fun p => p.1 = k) then pushAssoc l k v else l ++ [(k, [v])]

/-- The `index.files[relativePath] = {...}` record built at lines
314-321 for one Markdown file (`category` is the enclosing directory's
relative path, `mt` gives `stat.mtime` per relative path):
  * `title`: the first level-1 heading, else the file name with its
    first `.md` removed (`metadata.title || file.replace('.md', '')`);
  * `tags`: `metadata.tags` (`|| []` is vacuous: it is always an array);
  * `summary`: the summary match, else the first 200 characters of the
    whole content with newlines replaced by spaces
    (`metadata.summary || content.substring(0, 200).replace(/\n/g, ' ')`). -/
def mkFileEntry (mt : String → Nat) (category name content : String) : IndexEntry :=
  let md := extractMetadata content
  { category := category
    size := content.utf8ByteSize
    modified := mt (pathJoin category name)
    title := if md.title = "" then ⟨replaceFirstL ".md".data [] name.data⟩
             else md.title
    tags := md.tags
    summary := if md.summary = "" then
        ⟨(content.data.take 200).map (fun c => if c = '\n' then ' ' else c)⟩
      else md.summary }

mutual

/-- One iteration of `indexDirectory`'s `files.forEach` (lines
299-333).  `category` is the slash-joined path of the enclosing
directory relative to the root (`''` at the root); `mt` gives each
relative path's `stat.mtime`.  A hidden directory whose name ends in
`.md` falls into the `file.endsWith('.md')` branch where
`fs.readFileSync` throws `EISDIR`: modelled as `none`. -/
def indexEntry (mt : String → Nat) (category : String) (idx : Index) :
    Entry → Option Index
  | .dir name sub =>
    if ¬ strStartsWith name "." then
      let subCategory := pathJoin category name
      indexEntries mt subCategory
        { idx with categories := idx.categories ++ [(subCategory, [])] } sub
    else if strEndsWith name ".md" then none
    else some idx
  | .file name content =>
    if strEndsWith name ".md" then
      let relativePath := pathJoin category name
      let md := extractMetadata content
      let idx1 := { idx with
                     files := idx.files ++ [(relativePath, mkFileEntry mt category name content)] }
      let idx2 := if category = "" then idx1
                  else { idx1 with
                          categories := pushAssoc idx1.categories category relativePath }
      some (md.tags.foldl
        (fun i tag => { i with tags := upsertPush i.tags tag relativePath }) idx2)
    else some idx

/-- `indexDirectory(dir, category)` over a directory's entry list,
threading the mutable `index` object. -/
def indexEntries (mt : String → Nat) (category : String) (idx : Index) :
    List Entry → Option Index
  | [] => some idx
  | e :: rest =>
    match indexEntry mt category idx e with
    | none => none
    | some idx2 => indexEntries mt category idx2 rest

end

/-- The index before any file is visited (`updated` is the build
timestamp `new Date().toISOString()`). -/
def emptyIndex (now : String) : Index := ⟨now, [], [], []⟩

/-- `indexDirectory(memoryBankDir)` on the root's entries: the full
index document the run would serialize. -/
def buildIndex (mt : String → Nat) (now : String) (root : List Entry) : Option Index :=
  indexEntries mt "" (emptyIndex now) root

/-- `fs.writeFileSync` of a file directly under the root: overwrite an
existing file in place, create the file otherwise (the position of a
newly created entry in `readdirSync` order is filesystem-dependent;
appending is one admissible order).  Writing over a directory throws
`EISDIR`: `none`. -/
def writeFileRoot : List Entry → String → String → Option (List Entry)
  | [], fname, content => some [.file fname content]
  | .file n c :: rest, fname, content =>
    if n = fname then some (.file n content :: rest)
    else (writeFileRoot rest fname content).map (.file n c :: ·)
  | .dir n es :: rest, fname, content =>
    if n = fname then none
    else (writeFileRoot rest fname content).map (.dir n es :: ·)

/-! ## The scaffolder (`init-memory-bank.js` lines 14-234) -/

/-- The placeholder table of init-memory-bank.js lines 46-57, in
object-literal insertion order (all keys are non-numeric strings, so
`Object.entries` preserves this order). -/
def replacements (projectName projectDescription architecture framework
    language date : String) : List (String × String) :=
  [("[PROJECT_NAME]", projectName),
   ("[PROJECT_DESCRIPTION]", projectDescription),
   ("[Your Architecture Type]", architecture),
   ("[Your architecture type]", jsLower architecture),
   ("[Your framework]", framework),
   ("[Primary language]", language),
   ("[DATE]", date),
   ("[YYYY-MM-DD]", date),
   ("[PORT]", "3000"),
   ("[YOUR_DOMAIN]", "api.example.com")]

/-- The `Object.entries(replacements).forEach` loop of
`replaceInDirectory`: each placeholder is replaced globally, in table
order, on the running content. -/
def applyReplacements (reps : List (String × String)) (content : String) : String :=
  reps.foldl (fun c pv => jsReplaceAll pv.1 pv.2 c) content

mutual

/-- One iteration of `replaceInDirectory`'s loop (lines 208-227):
recurse into every directory (hidden ones included); rewrite regular
files ending in `.md` or `.json`; leave every other file untouched. -/
def replaceInEntry (reps : List (String × String)) : Entry → Entry
  | .file name content =>
    if strEndsWith name ".md" || strEndsWith name ".json" then
      .file name (applyReplacements reps content)
    else .file name content
  | .dir name sub => .dir name (replaceInEntries reps sub)

/-- `replaceInDirectory(dir, replacements)` over an entry list. -/
def replaceInEntries (reps : List (String × String)) : List Entry → List Entry
  | [] => []
  | e :: rest => replaceInEntry reps e :: replaceInEntries reps rest

end

/-- The interactive answers consumed by `initMemoryBank` (lines
18-22, 32). -/
structure Answers where
  projectName : String
  projectDescription : String
  architecture : String
  framework : String
  language : String
  overwrite : String

/-- `fs.rmSync(targetDir, { recursive: true, force: true })`: drop the
named entry from the root. -/
def removeEntry (root : List Entry) (n : String) : List Entry :=
  root.filter (fun e => e.name ≠ n)

/-- Replace the entries of the top-level directory named `d` using
`f`; `none` models `ENOENT`/`ENOTDIR` (no such directory). -/
def updateDirAt (d : String) (f : List Entry → Option (List Entry)) :
    List Entry → Option (List Entry)
  | [] => none
  | .file n c :: rest =>
    if n = d then none
    else (updateDirAt d f rest).map (.file n c :: ·)
  | .dir n es :: rest =>
    if n = d then (f es).map (fun es2 => .dir n es2 :: rest)
    else (updateDirAt d f rest).map (.dir n es :: ·)

/-- `fs.writeFileSync` at a path of directory components below the
given entry list. -/
def writeFileAt (root : List Entry) (path : List String) (fname content : String) :
    Option (List Entry) :=
  match path with
  | [] => writeFileRoot root fname content
  | d :: ds => updateDirAt d (fun sub => writeFileAt sub ds fname content) root

/-- The `context/active.md` content generated at lines 62-85. -/
def activeContext (date architecture framework language : String) : String :=
  "# Active Development Context\n\n## Current Sprint\n- Sprint: 1\n- Start Date: "
    ++ date ++
    "\n- Focus: Initial setup and foundation\n\n## Current Tasks\n- Set up development environment\n- Define initial architecture\n- Create basic project structure\n\n## Recent Decisions\n- Chose "
    ++ architecture ++ " architecture\n- Selected "
    ++ framework ++ " as primary framework\n- Using "
    ++ language ++ " as primary language\n\n## Notes\n- Project initialized on "
    ++ date ++
    "\n- See projectBrief.md for full project details\n\n---\n\n*Last Updated: "
    ++ date ++ "*"

/-- Placeholder for the `memory-search.js` source text written at line
179 (a fixed template string; no claim inspects it). -/
def memorySearchScript : String := "memory-search.js script text"

/-- The scaffolding path of `initMemoryBank` (lines 42-189) once the
destination is clear: copy `memory-bank-template` to `memory-bank`,
substitute placeholders in the copy, write `context/active.md`, add
the `scripts` directory and the search script, exit 0.  `none` models
an exception (missing template, missing `context` directory, a
`scripts` regular file); such an exception is caught by the top-level
`.catch(console.error)`, so its partial filesystem effects are not
modelled.  Rewriting `package.json` would need a JSON parser; a root
containing `package.json` (this repository has none) is also left
unmodelled as `none`. -/
def scaffoldFresh (root : List Entry) (a : Answers) (date : String) :
    Option (List Entry × Nat) := do
  let template ←
    match findEntry root "memory-bank-template" with
    | some (.dir _ es) => some es
    | _ => none
  let reps := replacements a.projectName a.projectDescription a.architecture
    a.framework a.language date
  let copied := replaceInEntries reps template
  let copied2 ← writeFileAt copied ["context"] "active.md"
    (activeContext date a.architecture a.framework a.language)
  let root2 := root ++ [.dir "memory-bank" copied2]
  if hasEntry root2 "package.json" then none
  else
    let root3 := if hasEntry root2 "scripts" then root2
                 else root2 ++ [.dir "scripts" []]
    let root4 ← writeFileAt root3 ["scripts"] "memory-search.js" memorySearchScript
    some (root4, 0)

/-- `initMemoryBank()` (lines 14-190) from the destination check on:
if `memory-bank` exists and the answer's lowercase form is not `"y"`,
print `Initialization cancelled.`, return normally (the process then
exits with code 0) and touch nothing; otherwise clear the destination
if needed and scaffold. -/
def initMemoryBank (root : List Entry) (a : Answers) (date : String) :
    Option (List Entry × Nat) :=
  if hasEntry root "memory-bank" then
    if jsLower a.overwrite ≠ "y" then some (root, 0)
    else scaffoldFresh (removeEntry root "memory-bank") a date
  else scaffoldFresh root a date

/-! ## Well-formedness predicates and specification-side descriptions

The remaining definitions are not translations of source functions:
they are filesystem well-formedness conditions (what a real filesystem
guarantees about names) and specification-side restatements used to
characterize the traversal functions above.  Each is named and used
only in theorem statements. -/

/-- Everything after the first `'\n'` (the rest of the text after the
current line); `[]` when there is no newline. -/
def dropLine : List Char → List Char
  | [] => []
  | c :: cs => if c = '\n' then cs else dropLine cs

/-- The summary line predicate of §4.2 of the spec: a line that is
nonempty and does not begin with `#`. -/
def summaryPred : List Char → Bool
  | [] => false
  | c :: _ => decide (c ≠ '#')

/-- Specification-side summary rule: the first line (in `split('\n')`
order) that is nonempty and does not start with `#`, in full; when no
such line exists, the first 200 characters of the whole content with
newlines replaced by spaces. -/
def specSummary (content : String) : String :=
  match (splitNl content.data).find? summaryPred with
  | some l => ⟨l⟩
  | none => ⟨(content.data.take 200).map (fun c => if c = '\n' then ' ' else c)⟩

/-- All regular files of a tree (any depth, hidden or not), as
(name, content) pairs in traversal order. -/
def filesOf : List Entry → List (String × String)
  | [] => []
  | .file n c :: rest => (n, c) :: filesOf rest
  | .dir _ sub :: rest => filesOf sub ++ filesOf rest

/-- Specification-side enumeration of every Markdown file under a
root, hidden directories included: (relative path, content) pairs in
depth-first traversal order. -/
def allMd : String → List Entry → List (String × String)
  | _, [] => []
  | pre, .file name content :: rest =>
    (if strEndsWith name ".md" then [(pathJoin pre name, content)] else []) ++
      allMd pre rest
  | pre, .dir name sub :: rest =>
    allMd (pathJoin pre name) sub ++ allMd pre rest

/-- No directory anywhere in the tree has a name beginning with `.`. -/
def hiddenFree : List Entry → Bool
  | [] => true
  | .file _ _ :: rest => hiddenFree rest
  | .dir n sub :: rest => !strStartsWith n "." && hiddenFree sub && hiddenFree rest

/-- The tree with every hidden directory (name beginning with `.`)
removed, at every depth. -/
def pruneHidden : List Entry → List Entry
  | [] => []
  | .file n c :: rest => .file n c :: pruneHidden rest
  | .dir n sub :: rest =>
    if strStartsWith n "." then pruneHidden rest
    else .dir n (pruneHidden sub) :: pruneHidden rest

/-- The indexer visits a hidden directory's name but not its contents;
it throws (`EISDIR`) exactly when a visited hidden directory's name
ends in `.md`.  `indexOK` rules that out: every hidden directory the
traversal can see has a name not ending in `.md`. -/
def indexOK : List Entry → Bool
  | [] => true
  | .file _ _ :: rest => indexOK rest
  | .dir n sub :: rest =>
    (if strStartsWith n "." then !strEndsWith n ".md" else indexOK sub) && indexOK rest

/-- A legal filesystem entry name: nonempty and without `/`. -/
def validName (s : String) : Bool := !decide (s = "") && !s.data.contains '/'

/-- Filesystem well-formedness: at every level the sibling names are
distinct, and every name is a legal entry name. -/
def wfNames : List Entry → Bool
  | [] => true
  | .file n _ :: rest => validName n && wfNames rest
  | .dir n sub :: rest =>
    validName n && decide ((sub.map Entry.name).Nodup) && wfNames sub && wfNames rest

/-- Well-formedness of a root directory: distinct names at the top
level too. -/
def wfRoot (es : List Entry) : Bool :=
  decide ((es.map Entry.name).Nodup) && wfNames es

/-- Specification-side description of `index.files`: one record per
visible Markdown file, in traversal order, built by `mkFileEntry`. -/
def filesSpec (mt : String → Nat) : String → List Entry → List (String × IndexEntry)
  | _, [] => []
  | cat, .file name content :: rest =>
    (if strEndsWith name ".md" then
      [(pathJoin cat name, mkFileEntry mt cat name content)]
    else []) ++ filesSpec mt cat rest
  | cat, .dir name sub :: rest =>
    (if strStartsWith name "." then [] else filesSpec mt (pathJoin cat name) sub) ++
      filesSpec mt cat rest

/-- The Markdown files directly inside a directory (not in nested
subdirectories), as relative paths under the directory's path `sc`. -/
def directMd (sc : String) (es : List Entry) : List String :=
  es.flatMap (fun e =>
    match e with
    | .file name _ => if strEndsWith name ".md" then [pathJoin sc name] else []
    | .dir _ _ => [])

/-- Specification-side description of `index.categories`: one key per
non-hidden directory at every depth (its slash-joined relative path),
in pre-order, each holding the relative paths of the Markdown files
directly inside that directory. -/
def catsSpec : String → List Entry → List (String × List String)
  | _, [] => []
  | cat, .file _ _ :: rest => catsSpec cat rest
  | cat, .dir name sub :: rest =>
    if strStartsWith name "." then catsSpec cat rest
    else
      (pathJoin cat name, directMd (pathJoin cat name) sub) ::
        (catsSpec (pathJoin cat name) sub ++ catsSpec cat rest)

/-- The keys of an association list. -/
def keysOf (l : List (String × List String)) : List String := l.map Prod.fst

/-- Extend the value of the first entry with key `k` by `vs` (the
accumulated effect of the indexer's repeated `push` calls on one
key). -/
def appendAssoc (l : List (String × List String)) (k : String) (vs : List String) :
    List (String × List String) :=
  match l with
  | [] => []
  | (k2, L) :: rest =>
    if k2 = k then (k2, L ++ vs) :: rest else (k2, L) :: appendAssoc rest k vs

/-- The indexer pushes a file's relative path onto `categories[cat]`
only when `cat` is truthy (nonempty). -/
def bumpCats (l : List (String × List String)) (cat : String) (vs : List String) :
    List (String × List String) :=
  if cat = "" then l else appendAssoc l cat vs

/-- `k` lies in the key family of the non-hidden directory `n` under
`cat`: it is the directory's own path or a strict descendant of it. -/
def memberOfFamily (cat n k : String) : Prop :=
  k = pathJoin cat n ∨ ∃ r, k = pathJoin cat n ++ "/" ++ r

/-- Every path recorded in any list of the categories mapping contains
a `/` (it names a file inside some directory). -/
def catsSlashInv (l : List (String × List String)) : Prop :=
  ∀ kL ∈ l, ∀ p ∈ kL.2, '/' ∈ p.data

/-! ## Claims C1-C3 -/

/-- C1, counterexample: with `memory-bank` already present and the
answer `"n"` to the overwrite prompt, the scaffolder leaves the
filesystem untouched but returns normally, so the process exits with
code 0 — there is no `process.exit(1)` on this path — contradicting
the claimed nonzero exit code. -/
theorem c1_decline_exit_code_is_zero :
    ¬ ∃ p : List Entry × Nat,
        initMemoryBank [Entry.dir "memory-bank" []]
          ⟨"Foo", "Bar", "monolith", "fastify", "go", "n"⟩ "2026-01-01" = some p ∧
        p.2 ≠ 0 := by
  rintro ⟨p, hp, hnz⟩
  have heval : initMemoryBank [Entry.dir "memory-bank" []]
      ⟨"Foo", "Bar", "monolith", "fastify", "go", "n"⟩ "2026-01-01" =
      some ([Entry.dir "memory-bank" []], 0) := rfl
  rw [heval, Option.some.injEq] at hp
  subst hp
  exact hnz rfl

/-- C1 (amended): if the destination `memory-bank` already exists and
the user's answer to the overwrite prompt does not lowercase to `"y"`,
the run makes no filesystem writes (the root is returned unchanged)
and the process exits normally with code 0 after printing
`Initialization cancelled.`. -/
theorem c1_decline_leaves_fs_untouched (root : List Entry) (a : Answers) (date : String)
    (hdest : hasEntry root "memory-bank" = true)
    (hans : jsLower a.overwrite ≠ "y") :
    initMemoryBank root a date = some (root, 0) := by
  unfold initMemoryBank
  simp [hdest, hans]

/-- Witness for C1's amended theorem at a concrete root and answer. -/
theorem c1_decline_leaves_fs_untouched_witness :
    hasEntry [Entry.dir "memory-bank" []] "memory-bank" = true ∧
    jsLower "No" ≠ "y" ∧
    initMemoryBank [Entry.dir "memory-bank" []]
      ⟨"Foo", "Bar", "monolith", "fastify", "go", "No"⟩ "2026-01-01" =
      some ([Entry.dir "memory-bank" []], 0) :=
  ⟨by decide, by decide,
    c1_decline_leaves_fs_untouched [Entry.dir "memory-bank" []]
      ⟨"Foo", "Bar", "monolith", "fastify", "go", "No"⟩ "2026-01-01"
      (by decide) (by decide)⟩

/-- C2, counterexample: on `a.md` = `# Hello\ntags: [x, y]\nSome
summary text.` the indexer's summary is the tags line — the first line
not starting with `#` — not `"Some summary text."` as claimed. -/
theorem c2_summary_is_tags_line :
    buildIndex (fun _ => 0) "T"
        [Entry.file "a.md" "# Hello\ntags: [x, y]\nSome summary text."] =
      some ⟨"T", [("a.md", ⟨"", 39, 0, "Hello", ["x", "y"], "tags: [x, y]"⟩)], [],
            [("x", ["a.md"]), ("y", ["a.md"])]⟩ ∧
    ("tags: [x, y]" : String) ≠ "Some summary text." := by
  constructor
  · have hmd : extractMetadata "# Hello\ntags: [x, y]\nSome summary text." =
        ⟨"Hello", ["x", "y"], "tags: [x, y]"⟩ := by decide
    have hend : strEndsWith "a.md" ".md" = true := by decide
    have hsize : ("# Hello\ntags: [x, y]\nSome summary text." : String).utf8ByteSize = 39 := by
      decide
    simp [buildIndex, indexEntries, indexEntry, mkFileEntry, hmd, hend, hsize, pathJoin,
      emptyIndex, upsertPush, pushAssoc]
  · decide

/-- C2 (amended): indexing a tree with the single file `a.md`
containing `# Hello\ntags: [x, y]\nSome summary text.` yields an index
entry for `a.md` with title `"Hello"`, tags `["x", "y"]` and summary
`"tags: [x, y]"` (the tags line is the first line that does not start
with `#`, so it — not the third line — becomes the summary). -/
theorem c2_single_file_index_entry (mt : String → Nat) (now : String) :
    buildIndex mt now
        [Entry.file "a.md" "# Hello\ntags: [x, y]\nSome summary text."] =
      some ⟨now,
            [("a.md", ⟨"", 39, mt "a.md", "Hello", ["x", "y"], "tags: [x, y]"⟩)],
            [],
            [("x", ["a.md"]), ("y", ["a.md"])]⟩ := by
  have hmd : extractMetadata "# Hello\ntags: [x, y]\nSome summary text." =
      ⟨"Hello", ["x", "y"], "tags: [x, y]"⟩ := by decide
  have hend : strEndsWith "a.md" ".md" = true := by decide
  have hsize : ("# Hello\ntags: [x, y]\nSome summary text." : String).utf8ByteSize = 39 := by
    decide
  simp [buildIndex, indexEntries, indexEntry, mkFileEntry, hmd, hend, hsize, pathJoin,
    emptyIndex, upsertPush, pushAssoc]

/-- C3, counterexample: browsing the nonexistent category `foo` when
only `bar` and `baz` exist prints a single not-found line on stderr
and exits 1; neither available category name appears anywhere in the
output, contradicting the claimed courtesy listing. -/
theorem c3_not_found_lists_nothing :
    browseMain [Entry.dir "bar" [], Entry.dir "baz" []] (some "foo") =
      some ⟨[], ["Category 'foo' not found"], 1⟩ ∧
    ∀ l ∈ (["Category 'foo' not found"] : List String),
      isInfixOfL "bar".data l.data = false ∧ isInfixOfL "baz".data l.data = false :=
  ⟨rfl, by decide⟩

/-- C3 (amended): given a nonempty category argument that does not
exist under the memory-bank root, the browse tool prints only
`Category '<name>' not found` on stderr and exits with code 1; it does
not list the available categories (that listing is printed only when
the category argument is omitted or empty). -/
theorem c3_not_found_fails_without_listing (root : List Entry) (cat : String)
    (hne : cat ≠ "") (habs : findEntry root cat = none) :
    browseMain root (some cat) =
      some ⟨[], ["Category '" ++ cat ++ "' not found"], 1⟩ := by
  unfold browseMain
  simp [hne, habs]

/-- Witness for C3's amended theorem at a concrete root. -/
theorem c3_not_found_fails_without_listing_witness :
    ("foo" : String) ≠ "" ∧
    findEntry [Entry.dir "bar" [], Entry.dir "baz" []] "foo" = none ∧
    browseMain [Entry.dir "bar" [], Entry.dir "baz" []] (some "foo") =
      some ⟨[], ["Category 'foo' not found"], 1⟩ :=
  ⟨by decide, rfl,
    c3_not_found_fails_without_listing [Entry.dir "bar" [], Entry.dir "baz" []]
      "foo" (by decide) rfl⟩

/-! ## Claim C5: the summary rule -/

theorem dropLine_length_le (s : List Char) : (dropLine s).length ≤ s.length := by
  induction s with
  | nil => simp [dropLine]
  | cons c cs ih =>
    rw [dropLine]
    split
    · simp
    · exact Nat.le_trans ih (Nat.le_succ _)

theorem splitNl_structure (s : List Char) :
    splitNl s = s.takeWhile (fun d => decide (d ≠ '\n')) ::
      (if '\n' ∈ s then splitNl (dropLine s) else []) := by
  induction s with
  | nil => simp [splitNl, splitOnCharL]
  | cons c cs ih =>
    by_cases hc : c = '\n'
    · subst hc
      simp [splitNl, splitOnCharL, dropLine, List.takeWhile_cons]
    · have hmem : ('\n' ∈ c :: cs) ↔ ('\n' ∈ cs) := by
        simp [List.mem_cons, Ne.symm hc]
      rw [splitNl, splitOnCharL, if_neg hc, ← splitNl, ih]
      simp only [List.takeWhile_cons, hc, decide_not, decide_eq_true_eq,
        if_pos, dropLine, if_neg hc]
      rw [if_congr hmem rfl rfl]
      simp [hc]

theorem findSummaryAux_false (cs : List Char) :
    findSummaryAux false cs =
      if '\n' ∈ cs then findSummaryAux true (dropLine cs) else none := by
  induction cs with
  | nil => simp [findSummaryAux]
  | cons c cs ih =>
    rw [findSummaryAux]
    simp only [Bool.false_and, Bool.false_eq_true, if_false]
    by_cases hc : c = '\n'
    · subst hc
      simp [dropLine]
    · have hmem : ('\n' ∈ c :: cs) ↔ ('\n' ∈ cs) := by
        simp [List.mem_cons, Ne.symm hc]
      rw [show (decide (c = '\n')) = false by simp [hc], ih, if_congr hmem rfl rfl]
      rw [dropLine, if_neg hc]

theorem findSummaryAux_some_ne_nil (b : Bool) (s g : List Char)
    (h : findSummaryAux b s = some g) : g ≠ [] := by
  induction s generalizing b with
  | nil => simp [findSummaryAux] at h
  | cons c cs ih =>
    rw [findSummaryAux] at h
    split at h
    · cases h; simp
    · exact ih _ h

theorem findSummaryAux_true_eq_aux :
    ∀ (n : Nat) (s : List Char), s.length ≤ n →
      findSummaryAux true s = (splitNl s).find? summaryPred := by
  intro n
  induction n with
  | zero =>
    intro s hs
    have hnil : s = [] := List.eq_nil_of_length_eq_zero (Nat.le_zero.mp hs)
    subst hnil
    simp [findSummaryAux, splitNl, splitOnCharL, summaryPred]
  | succ n ih =>
    intro s hs
    match s with
    | [] => simp [findSummaryAux, splitNl, splitOnCharL, summaryPred]
    | c :: cs =>
      have hcs : cs.length ≤ n := by
        simp only [List.length_cons] at hs
        omega
      rw [splitNl_structure]
      by_cases hsharp : c = '#'
      · subst hsharp
        have htw : ('#' :: cs).takeWhile (fun d => decide (d ≠ '\n')) =
            '#' :: cs.takeWhile (fun d => decide (d ≠ '\n')) := by
          simp [List.takeWhile_cons]
        rw [htw, List.find?_cons_of_neg _ (by simp [summaryPred])]
        have hlhs : findSummaryAux true ('#' :: cs) = findSummaryAux false cs := by
          rw [findSummaryAux]
          simp
        rw [hlhs, findSummaryAux_false]
        have hmem : ('\n' ∈ '#' :: cs) ↔ ('\n' ∈ cs) := by
          simp [List.mem_cons]
        rw [if_congr hmem rfl rfl, dropLine, if_neg (by decide : ¬ ('#' : Char) = '\n')]
        by_cases hm : '\n' ∈ cs
        · rw [if_pos hm, if_pos hm]
          exact ih (dropLine cs) (Nat.le_trans (dropLine_length_le cs) hcs)
        · rw [if_neg hm, if_neg hm]
          simp
      · by_cases hnl : c = '\n'
        · subst hnl
          have hlhs : findSummaryAux true ('\n' :: cs) = findSummaryAux true cs := by
            rw [findSummaryAux]
            simp
          rw [hlhs]
          have htw : ('\n' :: cs).takeWhile (fun d => decide (d ≠ '\n')) =
              ([] : List Char) := by
            simp [List.takeWhile_cons]
          rw [htw, List.find?_cons_of_neg _ (by simp [summaryPred])]
          rw [if_pos (List.mem_cons_self _ _), dropLine, if_pos rfl]
          exact ih cs hcs
        · have hlhs : findSummaryAux true (c :: cs) =
              some (c :: cs.takeWhile (fun d => decide (d ≠ '\n'))) := by
            rw [findSummaryAux]
            simp [hsharp, hnl]
          rw [hlhs]
          have htw : (c :: cs).takeWhile (fun d => decide (d ≠ '\n')) =
              c :: cs.takeWhile (fun d => decide (d ≠ '\n')) := by
            simp [List.takeWhile_cons, hnl]
          rw [htw, List.find?_cons_of_pos _ (by simp [summaryPred, hsharp])]

theorem findSummary_eq_find (s : List Char) :
    findSummaryAux true s = (splitNl s).find? summaryPred :=
  findSummaryAux_true_eq_aux s.length s Nat.le.refl

/-- C5 (amended): for every Markdown file indexed, the summary stored
in its index entry equals the first nonempty line of the file that
does not begin with `#`, taken in full — it is NOT truncated to 200
characters — and, when no such line exists, it equals the first 200
characters of the whole content with newlines replaced by spaces
(rather than the empty string). -/
theorem c5_summary_rule (mt : String → Nat) (category name content : String) :
    (mkFileEntry mt category name content).summary = specSummary content := by
  unfold mkFileEntry specSummary extractMetadata
  simp only
  rw [← findSummary_eq_find]
  cases h : findSummaryAux true content.data with
  | none => simp
  | some g =>
    have hg : g ≠ [] := findSummaryAux_some_ne_nil true content.data g h
    have hne : (⟨g⟩ : String) ≠ "" := by
      intro hcon
      exact hg (congrArg String.data hcon)
    simp [hne]

set_option maxRecDepth 8192 in
/-- C5, counterexample: a file whose first (and only) line is 210
characters long gets that whole line as its summary — the claimed
truncation to 200 characters does not happen. -/
theorem c5_no_truncation :
    buildIndex (fun _ => 0) "T" [Entry.file "a.md" "aaaaaaaaaaaaaaaaaaaaaaaaaaaaaaaaaaaaaaaaaaaaaaaaaaaaaaaaaaaaaaaaaaaaaaaaaaaaaaaaaaaaaaaaaaaaaaaaaaaaaaaaaaaaaaaaaaaaaaaaaaaaaaaaaaaaaaaaaaaaaaaaaaaaaaaaaaaaaaaaaaaaaaaaaaaaaaaaaaaaaaaaaaaaaaaaaaaaaaaaaaaaaaaaaa"] =
      some ⟨"T", [("a.md", ⟨"", 210, 0, "a", [],
        "aaaaaaaaaaaaaaaaaaaaaaaaaaaaaaaaaaaaaaaaaaaaaaaaaaaaaaaaaaaaaaaaaaaaaaaaaaaaaaaaaaaaaaaaaaaaaaaaaaaaaaaaaaaaaaaaaaaaaaaaaaaaaaaaaaaaaaaaaaaaaaaaaaaaaaaaaaaaaaaaaaaaaaaaaaaaaaaaaaaaaaaaaaaaaaaaaaaaaaaaaaaaaaaaaa"⟩)], [], []⟩ ∧
    ("aaaaaaaaaaaaaaaaaaaaaaaaaaaaaaaaaaaaaaaaaaaaaaaaaaaaaaaaaaaaaaaaaaaaaaaaaaaaaaaaaaaaaaaaaaaaaaaaaaaaaaaaaaaaaaaaaaaaaaaaaaaaaaaaaaaaaaaaaaaaaaaaaaaaaaaaaaaaaaaaaaaaaaaaaaaaaaaaaaaaaaaaaaaaaaaaaaaaaaaaaaaaaaaaaa" : String) ≠
      "aaaaaaaaaaaaaaaaaaaaaaaaaaaaaaaaaaaaaaaaaaaaaaaaaaaaaaaaaaaaaaaaaaaaaaaaaaaaaaaaaaaaaaaaaaaaaaaaaaaaaaaaaaaaaaaaaaaaaaaaaaaaaaaaaaaaaaaaaaaaaaaaaaaaaaaaaaaaaaaaaaaaaaaaaaaaaaaaaaaaaaaaaaaaaaaaaaaaaaaa" := by
  constructor
  · have hmd : extractMetadata "aaaaaaaaaaaaaaaaaaaaaaaaaaaaaaaaaaaaaaaaaaaaaaaaaaaaaaaaaaaaaaaaaaaaaaaaaaaaaaaaaaaaaaaaaaaaaaaaaaaaaaaaaaaaaaaaaaaaaaaaaaaaaaaaaaaaaaaaaaaaaaaaaaaaaaaaaaaaaaaaaaaaaaaaaaaaaaaaaaaaaaaaaaaaaaaaaaaaaaaaaaaaaaaaaa" =
        ⟨"", [], "aaaaaaaaaaaaaaaaaaaaaaaaaaaaaaaaaaaaaaaaaaaaaaaaaaaaaaaaaaaaaaaaaaaaaaaaaaaaaaaaaaaaaaaaaaaaaaaaaaaaaaaaaaaaaaaaaaaaaaaaaaaaaaaaaaaaaaaaaaaaaaaaaaaaaaaaaaaaaaaaaaaaaaaaaaaaaaaaaaaaaaaaaaaaaaaaaaaaaaaaaaaaaaaaaa"⟩ := by decide
    have hend : strEndsWith "a.md" ".md" = true := by decide
    have hsize : ("aaaaaaaaaaaaaaaaaaaaaaaaaaaaaaaaaaaaaaaaaaaaaaaaaaaaaaaaaaaaaaaaaaaaaaaaaaaaaaaaaaaaaaaaaaaaaaaaaaaaaaaaaaaaaaaaaaaaaaaaaaaaaaaaaaaaaaaaaaaaaaaaaaaaaaaaaaaaaaaaaaaaaaaaaaaaaaaaaaaaaaaaaaaaaaaaaaaaaaaaaaaaaaaaaa" : String).utf8ByteSize = 210 := by
      decide
    have hrf : (⟨replaceFirstL ".md".data [] "a.md".data⟩ : String) = "a" := by decide
    have hne : (("aaaaaaaaaaaaaaaaaaaaaaaaaaaaaaaaaaaaaaaaaaaaaaaaaaaaaaaaaaaaaaaaaaaaaaaaaaaaaaaaaaaaaaaaaaaaaaaaaaaaaaaaaaaaaaaaaaaaaaaaaaaaaaaaaaaaaaaaaaaaaaaaaaaaaaaaaaaaaaaaaaaaaaaaaaaaaaaaaaaaaaaaaaaaaaaaaaaaaaaaaaaaaaaaaa" : String) = "") = False := by decide
    simp [buildIndex, indexEntries, indexEntry, mkFileEntry, hmd, hend, hsize, hrf,
      hne, pathJoin, emptyIndex]
  · decide

/-! ## Claim C6: placeholder substitution -/

/-- Induction over the nested `Entry`/`List Entry` structure, entry
level. -/
theorem Entry.inductP (P : Entry → Prop) (Q : List Entry → Prop)
    (hfile : ∀ n c, P (.file n c)) (hdir : ∀ n sub, Q sub → P (.dir n sub))
    (hnil : Q []) (hcons : ∀ e es, P e → Q es → Q (e :: es)) :
    ∀ e, P e :=
  fun e => Entry.rec hfile hdir hnil hcons e

/-- Induction over the nested `Entry`/`List Entry` structure, list
level. -/
theorem Entry.inductL (P : Entry → Prop) (Q : List Entry → Prop)
    (hfile : ∀ n c, P (.file n c)) (hdir : ∀ n sub, Q sub → P (.dir n sub))
    (hnil : Q []) (hcons : ∀ e es, P e → Q es → Q (e :: es)) :
    ∀ es, Q es := by
  intro es
  induction es with
  | nil => exact hnil
  | cons e rest ih => exact hcons e rest (Entry.inductP P Q hfile hdir hnil hcons e) ih

theorem isInfixOfL_iff (sub : List Char) : ∀ s, isInfixOfL sub s = true ↔ sub <:+: s := by
  intro s
  induction s with
  | nil =>
    rw [isInfixOfL]
    constructor
    · intro h
      rw [List.isEmpty_iff.mp h]
    · intro h
      rw [List.eq_nil_of_infix_nil h]
      rfl
  | cons c cs ih =>
    rw [isInfixOfL, Bool.or_eq_true, List.infix_cons_iff, List.isPrefixOf_iff_prefix, ih]

theorem getSubstitution_no_dollar (m b a : List Char) :
    ∀ (n : Nat) (tmpl : List Char), tmpl.length ≤ n → '$' ∉ tmpl →
      getSubstitution m b a tmpl = tmpl := by
  intro n
  induction n with
  | zero =>
    intro tmpl hlen _
    rw [List.eq_nil_of_length_eq_zero (Nat.le_zero.mp hlen), getSubstitution]
  | succ n ih =>
    intro tmpl hlen hd
    match tmpl with
    | [] => rw [getSubstitution]
    | [x] => rw [getSubstitution]
    | x :: c :: rest =>
      have hx : ¬ x = '$' := fun h => hd (h ▸ List.mem_cons_self x (c :: rest))
      rw [getSubstitution, if_neg hx]
      rw [ih (c :: rest) (by simp only [List.length_cons] at hlen ⊢; omega)
        (fun h => hd (List.mem_cons_of_mem _ h))]

theorem replaceAllAux_eq_lit (p : Char) (ps tmpl orig : List Char)
    (hd : '$' ∉ tmpl) :
    ∀ (s : List Char) (k pos : Nat),
      replaceAllAux p ps tmpl orig k pos s = replaceLitAux p ps tmpl k s := by
  intro s
  induction s with
  | nil =>
    intro k pos
    cases k with
    | zero => rfl
    | succ k => rfl
  | cons c cs ih =>
    intro k pos
    cases k with
    | zero =>
      rw [replaceAllAux, replaceLitAux]
      by_cases hm : (p :: ps).isPrefixOf (c :: cs)
      · rw [if_pos hm, if_pos hm,
          getSubstitution_no_dollar _ _ _ tmpl.length tmpl Nat.le.refl hd, ih]
      · rw [if_neg hm, if_neg hm, ih]
    | succ k => rw [replaceAllAux, replaceLitAux, ih]

theorem replaceAllL_eq_lit (p : Char) (ps tmpl : List Char) (hd : '$' ∉ tmpl)
    (s : List Char) : replaceAllL p ps tmpl s = replaceLitL p ps tmpl s := by
  rw [replaceAllL, replaceLitL, replaceAllAux_eq_lit p ps tmpl s hd]

theorem replaceLitAux_skip (p : Char) (ps rep : List Char) :
    ∀ (k : Nat) (s : List Char),
      replaceLitAux p ps rep k s = replaceLitAux p ps rep 0 (s.drop k) := by
  intro k
  induction k with
  | zero => intro s; rfl
  | succ k ih =>
    intro s
    cases s with
    | nil => rfl
    | cons c cs => rw [replaceLitAux, ih, List.drop_succ_cons]

theorem replaceLitL_cons (p : Char) (ps rep : List Char) (c : Char) (cs : List Char) :
    replaceLitL p ps rep (c :: cs) =
      if (p :: ps).isPrefixOf (c :: cs) then
        rep ++ replaceLitL p ps rep (cs.drop ps.length)
      else c :: replaceLitL p ps rep cs := by
  rw [replaceLitL, replaceLitAux, replaceLitAux_skip]
  rfl

theorem prefix_append_split {t a b : List Char} (h : t <+: a ++ b) :
    t <+: a ∨ ∃ t2, t = a ++ t2 ∧ t2 <+: b := by
  induction a generalizing t with
  | nil => exact Or.inr ⟨t, rfl, h⟩
  | cons x a ih =>
    cases t with
    | nil => exact Or.inl List.nil_prefix
    | cons y t =>
      rw [List.cons_append, List.cons_prefix_cons] at h
      obtain ⟨rfl, h2⟩ := h
      rcases ih h2 with h3 | ⟨t2, rfl, h4⟩
      · exact Or.inl (List.cons_prefix_cons.mpr ⟨rfl, h3⟩)
      · exact Or.inr ⟨t2, by simp, h4⟩

theorem infix_append_split {tok a b : List Char} (h : tok <:+: a ++ b) :
    tok <:+: a ∨ tok <:+: b ∨
      ∃ t1 t2, tok = t1 ++ t2 ∧ t1 ≠ [] ∧ t2 ≠ [] ∧ t1 <:+ a ∧ t2 <+: b := by
  induction a generalizing tok with
  | nil => exact Or.inr (Or.inl h)
  | cons x a ih =>
    rw [List.cons_append, List.infix_cons_iff] at h
    rcases h with hpre | hinf
    · rw [← List.cons_append] at hpre
      rcases prefix_append_split hpre with h1 | ⟨t2, rfl, h2⟩
      · exact Or.inl h1.isInfix
      · by_cases ht2 : t2 = []
        · subst ht2
          rw [List.append_nil]
          exact Or.inl (List.infix_refl _)
        · exact Or.inr (Or.inr ⟨x :: a, t2, rfl, by simp, ht2, List.suffix_refl _, h2⟩)
    · rcases ih hinf with h1 | h2 | ⟨t1, t2, rfl, ht1, ht2, hsuf, hpre2⟩
      · exact Or.inl (List.infix_cons h1)
      · exact Or.inr (Or.inl h2)
      · exact Or.inr (Or.inr ⟨t1, t2, rfl, ht1, ht2, hsuf.trans (List.suffix_cons _ _), hpre2⟩)

/-- If the replacement text shares no character with a nonempty word
`t`, then `t` can only be a prefix of a replacement result by being a
prefix of the original text. -/
theorem prefix_of_replaceAll (p : Char) (ps rep : List Char) (hrep : rep ≠ []) :
    ∀ (cs t : List Char), t ≠ [] → (∀ c ∈ rep, c ∉ t) →
      t <+: replaceLitL p ps rep cs → t <+: cs := by
  intro cs
  induction cs with
  | nil =>
    intro t ht _ hpre
    rw [show replaceLitL p ps rep [] = [] from rfl] at hpre
    exact absurd (List.prefix_nil.mp hpre) ht
  | cons c cs ih =>
    intro t ht hdisj hpre
    rw [replaceLitL_cons] at hpre
    by_cases hm : (p :: ps).isPrefixOf (c :: cs)
    · rw [if_pos hm] at hpre
      obtain ⟨t0, t', rfl⟩ := List.exists_cons_of_ne_nil ht
      obtain ⟨r0, rep', rfl⟩ := List.exists_cons_of_ne_nil hrep
      rw [List.cons_append, List.cons_prefix_cons] at hpre
      obtain ⟨rfl, _⟩ := hpre
      exact absurd (List.mem_cons_self _ _)
        (hdisj t0 (List.mem_cons_self _ _))
    · rw [if_neg hm] at hpre
      obtain ⟨t0, t', rfl⟩ := List.exists_cons_of_ne_nil ht
      rw [List.cons_prefix_cons] at hpre
      obtain ⟨rfl, hpre'⟩ := hpre
      cases ht' : t' with
      | nil =>
        subst ht'
        exact List.cons_prefix_cons.mpr ⟨rfl, List.nil_prefix⟩
      | cons u t'' =>
        subst ht'
        have hdisj' : ∀ ch ∈ rep, ch ∉ (u :: t'') := fun ch hch hmem =>
          hdisj ch hch (List.mem_cons_of_mem _ hmem)
        exact List.cons_prefix_cons.mpr ⟨rfl, ih _ (by simp) hdisj' hpre'⟩

/-- Core substitution lemma: a global replacement whose replacement
text shares no character with the word `tok` leaves no occurrence of
`tok` when either `tok` is the very pattern being replaced or the
input had no occurrence of `tok`. -/
theorem not_infix_replaceAll (p : Char) (ps rep tok : List Char)
    (hrep : rep ≠ []) (htok : tok ≠ []) (hdisj : ∀ c ∈ rep, c ∉ tok) :
    ∀ (n : Nat) (cs : List Char), cs.length ≤ n →
      (tok = p :: ps ∨ ¬ tok <:+: cs) →
      ¬ tok <:+: replaceLitL p ps rep cs := by
  intro n
  induction n with
  | zero =>
    intro cs hlen hside habs
    have hnil : cs = [] := List.eq_nil_of_length_eq_zero (Nat.le_zero.mp hlen)
    subst hnil
    rw [show replaceLitL p ps rep [] = [] from rfl] at habs
    exact htok (List.eq_nil_of_infix_nil habs)
  | succ n ih =>
    intro cs hlen hside habs
    cases cs with
    | nil =>
      rw [show replaceLitL p ps rep [] = [] from rfl] at habs
      exact htok (List.eq_nil_of_infix_nil habs)
    | cons c cs =>
      have hcs : cs.length ≤ n := by
        simp only [List.length_cons] at hlen
        omega
      rw [replaceLitL_cons] at habs
      by_cases hm : (p :: ps).isPrefixOf (c :: cs)
      · rw [if_pos hm] at habs
        rcases infix_append_split habs with h1 | h2 | ⟨t1, t2, heq, ht1, _, hsuf, _⟩
        · obtain ⟨t0, t', rfl⟩ := List.exists_cons_of_ne_nil htok
          exact hdisj t0 (h1.subset (List.mem_cons_self _ _)) (List.mem_cons_self _ _)
        · refine ih (cs.drop ps.length) ?_ ?_ h2
          · have := List.length_drop ps.length cs
            omega
          · rcases hside with h | h
            · exact Or.inl h
            · exact Or.inr (fun hinf => h (List.infix_cons
                (hinf.trans (List.drop_suffix ps.length cs).isInfix)))
        · obtain ⟨x, t1', rfl⟩ := List.exists_cons_of_ne_nil ht1
          have hx : x ∈ rep := hsuf.subset (List.mem_cons_self _ _)
          have hxtok : x ∈ tok := by
            rw [heq]
            exact List.mem_append_left _ (List.mem_cons_self _ _)
          exact hdisj x hx hxtok
      · rw [if_neg hm] at habs
        rcases List.infix_cons_iff.mp habs with hpre | hinf
        · obtain ⟨t0, t', rfl⟩ := List.exists_cons_of_ne_nil htok
          rw [List.cons_prefix_cons] at hpre
          obtain ⟨rfl, hpre'⟩ := hpre
          cases ht' : t' with
          | nil =>
            subst ht'
            rcases hside with h | h
            · apply hm
              rw [← h]
              simp [List.isPrefixOf]
            · exact h (List.IsPrefix.isInfix
                (List.cons_prefix_cons.mpr ⟨rfl, List.nil_prefix⟩))
          | cons u t'' =>
            subst ht'
            have hdisj' : ∀ ch ∈ rep, ch ∉ (u :: t'') := fun ch hch hmem =>
              hdisj ch hch (List.mem_cons_of_mem _ hmem)
            have hcspre : (u :: t'') <+: cs :=
              prefix_of_replaceAll p ps rep hrep cs _ (by simp) hdisj' hpre'
            rcases hside with h | h
            · apply hm
              rw [← h, List.isPrefixOf_iff_prefix]
              exact List.cons_prefix_cons.mpr ⟨rfl, hcspre⟩
            · exact h (List.IsPrefix.isInfix (List.cons_prefix_cons.mpr ⟨rfl, hcspre⟩))
        · refine ih cs hcs ?_ hinf
          rcases hside with h | h
          · exact Or.inl h
          · exact Or.inr (fun h2 => h (List.infix_cons h2))

/-- `jsReplaceAll` lifted to strings: same statement as
`not_infix_replaceAll`, for a `$`-free replacement value (so the
`GetSubstitution` expansion inserts the value verbatim). -/
theorem jsReplaceAll_no_token (pat rep s : String) (tok : List Char)
    (htok : tok ≠ []) (hpat : pat ≠ "") (hrep : rep ≠ "")
    (hdol : '$' ∉ rep.data)
    (hdisj : ∀ c ∈ rep.data, c ∉ tok)
    (hside : tok = pat.data ∨ ¬ tok <:+: s.data) :
    ¬ tok <:+: (jsReplaceAll pat rep s).data := by
  unfold jsReplaceAll
  cases hp : pat.data with
  | nil =>
    exact absurd (String.ext hp) hpat
  | cons p ps =>
    have hrep' : rep.data ≠ [] := fun h => hrep (String.ext h)
    rw [hp] at hside
    show ¬ tok <:+: replaceAllL p ps rep.data s.data
    rw [replaceAllL_eq_lit p ps rep.data hdol s.data]
    exact not_infix_replaceAll p ps rep.data tok hrep' htok hdisj
      s.data.length s.data Nat.le.refl hside

/-- Folding further replacement steps, none of whose values contains a
character of `tok` or a `$` (and none of which is empty), preserves
`tok`-freedom. -/
theorem foldl_no_token (tok : List Char) (htok : tok ≠ []) :
    ∀ (rest : List (String × String)) (s : String),
      (∀ pv ∈ rest, pv.1 ≠ "" ∧ pv.2 ≠ "" ∧ '$' ∉ pv.2.data ∧
        ∀ c ∈ pv.2.data, c ∉ tok) →
      ¬ tok <:+: s.data →
      ¬ tok <:+: (rest.foldl (fun c pv => jsReplaceAll pv.1 pv.2 c) s).data := by
  intro rest
  induction rest with
  | nil => intro s _ hs; exact hs
  | cons pv rest ih =>
    intro s hall hs
    rw [List.foldl_cons]
    refine ih _ (fun q hq => hall q (List.mem_cons_of_mem _ hq)) ?_
    obtain ⟨h1, h2, h3, h4⟩ := hall pv (List.mem_cons_self _ _)
    exact jsReplaceAll_no_token pv.1 pv.2 s tok htok h1 h2 h3 h4 (Or.inr hs)

theorem filesOf_cons (e : Entry) (rest : List Entry) :
    filesOf (e :: rest) = filesOf [e] ++ filesOf rest := by
  cases e with
  | file n c => simp [filesOf]
  | dir n sub => simp [filesOf]

/-- `filesOf` commutes with `replaceInEntries`: the output tree has the
same file names, with `.md`/`.json` contents rewritten by
`applyReplacements` and all other contents untouched. -/
theorem filesOf_replaceInEntries (reps : List (String × String)) :
    ∀ es, filesOf (replaceInEntries reps es) =
      (filesOf es).map (fun nc =>
        if strEndsWith nc.1 ".md" || strEndsWith nc.1 ".json" then
          (nc.1, applyReplacements reps nc.2)
        else nc) := by
  refine Entry.inductL
    (fun e => filesOf [replaceInEntry reps e] =
      (filesOf [e]).map (fun nc =>
        if strEndsWith nc.1 ".md" || strEndsWith nc.1 ".json" then
          (nc.1, applyReplacements reps nc.2)
        else nc))
    _ ?_ ?_ ?_ ?_
  · intro n c
    simp only [replaceInEntry]
    by_cases h1 : strEndsWith n ".md" = true
    · simp [filesOf, h1]
    · by_cases h2 : strEndsWith n ".json" = true
      · simp [filesOf, h1, h2]
      · simp [filesOf, h1, h2]
  · intro n sub ih
    simp only [replaceInEntry, filesOf, List.append_nil]
    exact ih
  · simp [replaceInEntries, filesOf]
  · intro e es ihe ihes
    rw [replaceInEntries, filesOf_cons, filesOf_cons e, List.map_append, ihe, ihes]

/-- C6, counterexample: `replaceInDirectory` only rewrites files whose
names end in `.md` or `.json`; a template file `a.txt` containing the
token is copied verbatim, so the output still contains the literal
`[PROJECT_NAME]`, contradicting "no file in the output directory
contains the literal token". -/
theorem c6_txt_file_keeps_token :
    replaceInEntries (replacements "Foo" "Bar" "monolith" "fastify" "go" "2026-01-01")
        [Entry.file "a.txt" "[PROJECT_NAME]"] =
      [Entry.file "a.txt" "[PROJECT_NAME]"] ∧
    isInfixOfL "[PROJECT_NAME]".data "[PROJECT_NAME]".data = true := by
  constructor
  · have h1 : strEndsWith "a.txt" ".md" = false := by decide
    have h2 : strEndsWith "a.txt" ".json" = false := by decide
    simp [replaceInEntries, replaceInEntry, h1, h2]
  · decide

/-- C6 (amended): after placeholder substitution with project name
`"Foo"`, no `.md` or `.json` file in the output contains the literal
token `[PROJECT_NAME]`: every occurrence was replaced (by `"Foo"` in
the first, global substitution pass, which cannot recreate the token
since `"Foo"` shares no character with it); files with any other
extension are copied verbatim and may retain the token.  The other
interactive answers are assumed nonempty, free of the token's
characters, and free of `$` (an answer containing a `$`-escape such as
`` $` `` would be expanded by ECMAScript `GetSubstitution` against the
surrounding text and could reassemble the token from template
fragments) — ordinary answers like `"monolith"` satisfy all three;
an adversarial answer could otherwise reintroduce the token. -/
theorem c6_md_json_token_free (desc arch fw lang date : String)
    (hd : desc ≠ "" ∧ '$' ∉ desc.data ∧ ∀ c ∈ desc.data, c ∉ "[PROJECT_NAME]".data)
    (ha : arch ≠ "" ∧ '$' ∉ arch.data ∧ ∀ c ∈ arch.data, c ∉ "[PROJECT_NAME]".data)
    (hal : '$' ∉ (jsLower arch).data ∧
      ∀ c ∈ (jsLower arch).data, c ∉ "[PROJECT_NAME]".data)
    (hf : fw ≠ "" ∧ '$' ∉ fw.data ∧ ∀ c ∈ fw.data, c ∉ "[PROJECT_NAME]".data)
    (hl : lang ≠ "" ∧ '$' ∉ lang.data ∧ ∀ c ∈ lang.data, c ∉ "[PROJECT_NAME]".data)
    (hdt : date ≠ "" ∧ '$' ∉ date.data ∧ ∀ c ∈ date.data, c ∉ "[PROJECT_NAME]".data)
    (es : List Entry) (fname content : String)
    (hmem : (fname, content) ∈ filesOf (replaceInEntries
        (replacements "Foo" desc arch fw lang date) es))
    (hext : (strEndsWith fname ".md" || strEndsWith fname ".json") = true) :
    isInfixOfL "[PROJECT_NAME]".data content.data = false := by
  rw [filesOf_replaceInEntries] at hmem
  obtain ⟨⟨n0, c0⟩, hmem0, heq⟩ := List.mem_map.mp hmem
  by_cases h : (strEndsWith n0 ".md" || strEndsWith n0 ".json") = true
  · rw [if_pos h] at heq
    injection heq with heq1 heq2
    subst heq1
    subst heq2
    have hal1 : jsLower arch ≠ "" := by
      intro hcon
      apply ha.1
      have hdata : (jsLower arch).data = [] := congrArg String.data hcon
      rw [jsLower] at hdata
      exact String.ext (List.map_eq_nil_iff.mp hdata)
    have hfirst : ¬ "[PROJECT_NAME]".data <:+:
        (jsReplaceAll "[PROJECT_NAME]" "Foo" c0).data :=
      jsReplaceAll_no_token _ _ _ _ (by decide) (by decide) (by decide)
        (by decide) (by decide) (Or.inl rfl)
    have hnot : ¬ "[PROJECT_NAME]".data <:+:
        (applyReplacements (replacements "Foo" desc arch fw lang date) c0).data := by
      unfold applyReplacements replacements
      rw [List.foldl_cons]
      refine foldl_no_token _ (by decide) _ _ ?_ hfirst
      intro pv hpv
      simp only [List.mem_cons, List.not_mem_nil, or_false] at hpv
      rcases hpv with rfl | rfl | rfl | rfl | rfl | rfl | rfl | rfl | rfl
      · exact ⟨(by decide : ("[PROJECT_DESCRIPTION]" : String) ≠ ""),
          hd.1, hd.2.1, hd.2.2⟩
      · exact ⟨(by decide : ("[Your Architecture Type]" : String) ≠ ""),
          ha.1, ha.2.1, ha.2.2⟩
      · exact ⟨(by decide : ("[Your architecture type]" : String) ≠ ""),
          hal1, hal.1, hal.2⟩
      · exact ⟨(by decide : ("[Your framework]" : String) ≠ ""),
          hf.1, hf.2.1, hf.2.2⟩
      · exact ⟨(by decide : ("[Primary language]" : String) ≠ ""),
          hl.1, hl.2.1, hl.2.2⟩
      · exact ⟨(by decide : ("[DATE]" : String) ≠ ""), hdt.1, hdt.2.1, hdt.2.2⟩
      · exact ⟨(by decide : ("[YYYY-MM-DD]" : String) ≠ ""), hdt.1, hdt.2.1, hdt.2.2⟩
      · exact ⟨(by decide : ("[PORT]" : String) ≠ ""),
          (by decide : ("3000" : String) ≠ ""), by decide, by decide⟩
      · exact ⟨(by decide : ("[YOUR_DOMAIN]" : String) ≠ ""),
          (by decide : ("api.example.com" : String) ≠ ""), by decide, by decide⟩
    exact Bool.eq_false_iff.mpr (fun htrue => hnot ((isInfixOfL_iff _ _).mp htrue))
  · rw [if_neg h] at heq
    injection heq with heq1 heq2
    subst heq1
    subst heq2
    exact absurd hext h

/-- Witness for C6's amended theorem at a concrete template tree and
concrete answers. -/
theorem c6_md_json_token_free_witness :
    (("Bar" : String) ≠ "" ∧ '$' ∉ ("Bar" : String).data ∧
      ∀ c ∈ ("Bar" : String).data, c ∉ "[PROJECT_NAME]".data) ∧
    (("monolith" : String) ≠ "" ∧ '$' ∉ ("monolith" : String).data ∧
      ∀ c ∈ ("monolith" : String).data, c ∉ "[PROJECT_NAME]".data) ∧
    ('$' ∉ (jsLower "monolith").data ∧
      ∀ c ∈ (jsLower "monolith").data, c ∉ "[PROJECT_NAME]".data) ∧
    (("fastify" : String) ≠ "" ∧ '$' ∉ ("fastify" : String).data ∧
      ∀ c ∈ ("fastify" : String).data, c ∉ "[PROJECT_NAME]".data) ∧
    (("go" : String) ≠ "" ∧ '$' ∉ ("go" : String).data ∧
      ∀ c ∈ ("go" : String).data, c ∉ "[PROJECT_NAME]".data) ∧
    (("2026-01-01" : String) ≠ "" ∧ '$' ∉ ("2026-01-01" : String).data ∧
      ∀ c ∈ ("2026-01-01" : String).data, c ∉ "[PROJECT_NAME]".data) ∧
    ("b.md", "see Foo here") ∈ filesOf (replaceInEntries
      (replacements "Foo" "Bar" "monolith" "fastify" "go" "2026-01-01")
      [Entry.dir "docs" [Entry.file "b.md" "see [PROJECT_NAME] here"]]) ∧
    (strEndsWith "b.md" ".md" || strEndsWith "b.md" ".json") = true ∧
    isInfixOfL "[PROJECT_NAME]".data ("see Foo here" : String).data = false := by
  refine ⟨by decide, by decide, by decide, by decide, by decide, by decide,
    ?_, by decide, ?_⟩
  · have hm1 : strEndsWith "b.md" ".md" = true := by decide
    simp [replaceInEntries, replaceInEntry, filesOf, hm1]
    decide
  · have hm1 : strEndsWith "b.md" ".md" = true := by decide
    exact c6_md_json_token_free "Bar" "monolith" "fastify" "go" "2026-01-01"
      (by decide) (by decide) (by decide) (by decide) (by decide) (by decide)
      [Entry.dir "docs" [Entry.file "b.md" "see [PROJECT_NAME] here"]]
      "b.md" "see Foo here"
      (by simp [replaceInEntries, replaceInEntry, filesOf, hm1]; decide)
      (by decide)

/-! ## Claim C7: search correctness -/

theorem mem_searchLines (relfile term : String) :
    ∀ (ls : List (List Char)) (i : Nat) (m : Match),
      m ∈ searchLines relfile term i ls ↔
      ∃ j line, ls.get? j = some line ∧
        jsIncludesL (jsLowerL line) (jsLowerL term.data) = true ∧
        m = ⟨relfile, i + j + 1, ⟨jsTrimL line⟩⟩ := by
  intro ls
  induction ls with
  | nil =>
    intro i m
    simp [searchLines]
  | cons line rest ih =>
    intro i m
    rw [searchLines, List.mem_append]
    constructor
    · intro hm
      rcases hm with hhd | hrec
      · by_cases hcond : jsIncludesL (jsLowerL line) (jsLowerL term.data) = true
        · rw [if_pos hcond, List.mem_singleton] at hhd
          exact ⟨0, line, rfl, hcond, by simpa using hhd⟩
        · rw [if_neg hcond] at hhd
          exact absurd hhd (List.not_mem_nil m)
      · obtain ⟨j, line2, hget, hcond, heq⟩ := (ih (i + 1) m).mp hrec
        refine ⟨j + 1, line2, by simpa using hget, hcond, ?_⟩
        rw [heq]
        have harith : i + 1 + j + 1 = i + (j + 1) + 1 := by omega
        rw [harith]
    · rintro ⟨j, line2, hget, hcond, rfl⟩
      cases j with
      | zero =>
        rw [List.get?_cons_zero, Option.some.injEq] at hget
        subst hget
        left
        rw [if_pos hcond, List.mem_singleton]
      | succ j =>
        rw [List.get?_cons_succ] at hget
        right
        refine (ih (i + 1) _).mpr ⟨j, line2, hget, hcond, ?_⟩
        have harith : i + (j + 1) + 1 = i + 1 + j + 1 := by omega
        rw [harith]

theorem allMd_cons (pre : String) (e : Entry) (rest : List Entry) :
    allMd pre (e :: rest) = allMd pre [e] ++ allMd pre rest := by
  cases e with
  | file n c => simp [allMd]
  | dir n sub => simp [allMd]

/-- On a tree without hidden directories, the search tool visits
exactly the Markdown files enumerated by `allMd`, in order, scanning
each with `searchInFile`. -/
theorem searchEntries_eq_allMd (term : String) :
    ∀ es, hiddenFree es = true → ∀ pre,
      searchEntries term pre es =
        (allMd pre es).flatMap (fun pc => searchInFile pc.1 pc.2 term) := by
  refine Entry.inductL
    (fun e => hiddenFree [e] = true → ∀ pre,
      searchEntry term pre e =
        (allMd pre [e]).flatMap (fun pc => searchInFile pc.1 pc.2 term))
    _ ?_ ?_ ?_ ?_
  · intro n c _ pre
    rw [searchEntry]
    by_cases h : strEndsWith n ".md" = true
    · simp [allMd, h]
    · simp only [Bool.not_eq_true] at h
      simp [allMd, h]
  · intro n sub ih hh pre
    rw [hiddenFree] at hh
    simp only [hiddenFree, Bool.and_eq_true, Bool.not_eq_true', Bool.and_true] at hh
    obtain ⟨hnh, hsub⟩ := hh
    rw [searchEntry, if_neg (by rw [hnh]; exact Bool.false_ne_true)]
    simp only [allMd, List.append_nil]
    exact ih hsub (pathJoin pre n)
  · intro _ pre
    simp [searchEntries, allMd]
  · intro e es ihe ihes hh pre
    have hhe : hiddenFree [e] = true := by
      cases e with
      | file n c => simp [hiddenFree]
      | dir n sub =>
        rw [hiddenFree] at hh ⊢
        simp only [Bool.and_eq_true] at hh ⊢
        exact ⟨hh.1, by simp [hiddenFree]⟩
    have hhes : hiddenFree es = true := by
      cases e with
      | file n c => rw [hiddenFree] at hh; exact hh
      | dir n sub =>
        rw [hiddenFree] at hh
        simp only [Bool.and_eq_true] at hh
        exact hh.2
    rw [searchEntries, allMd_cons, List.flatMap_append, ← ihe hhe pre, ← ihes hhes pre]

/-- C7 (confirmed): on any tree without hidden directories and any
query, a triple (path, 1-based line number, text) is returned by the
search tool exactly when some Markdown file under the root sits at
that path and its corresponding line contains the lowercased query as
a substring of its lowercased text, the reported text being the
trimmed original line. -/
theorem c7_search_exact (es : List Entry) (hh : hiddenFree es = true)
    (q p t : String) (n : Nat) :
    (⟨p, n, t⟩ : Match) ∈ searchEntries q "" es ↔
      ∃ content line, (p, content) ∈ allMd "" es ∧
        1 ≤ n ∧ (splitNl content.data).get? (n - 1) = some line ∧
        jsIncludesL (jsLowerL line) (jsLowerL q.data) = true ∧
        t = ⟨jsTrimL line⟩ := by
  rw [searchEntries_eq_allMd q es hh "", List.mem_flatMap]
  constructor
  · rintro ⟨⟨p0, c0⟩, hmem, hin⟩
    rw [searchInFile] at hin
    obtain ⟨j, line, hget, hcond, heq⟩ := (mem_searchLines p0 q _ 0 _).mp hin
    injection heq with h1 h2 h3
    subst h1
    subst h3
    refine ⟨c0, line, hmem, by omega, ?_, hcond, rfl⟩
    rw [h2]
    simpa using hget
  · rintro ⟨content, line, hmem, hn, hget, hcond, rfl⟩
    refine ⟨(p, content), hmem, ?_⟩
    rw [searchInFile]
    refine (mem_searchLines p q _ 0 _).mpr ⟨n - 1, line, hget, hcond, ?_⟩
    have harith : n = 0 + (n - 1) + 1 := by omega
    rw [← harith]

/-- Witness for C7 at a concrete tree and query. -/
theorem c7_search_exact_witness :
    hiddenFree [Entry.dir "ctx" [Entry.file "a.md" "Authentication flow\nother"]] = true ∧
    ((⟨"ctx/a.md", 1, "Authentication flow"⟩ : Match) ∈
        searchEntries "auth" "" [Entry.dir "ctx" [Entry.file "a.md"
          "Authentication flow\nother"]] ↔
      ∃ content line,
        ("ctx/a.md", content) ∈ allMd ""
          [Entry.dir "ctx" [Entry.file "a.md" "Authentication flow\nother"]] ∧
        1 ≤ 1 ∧ (splitNl content.data).get? (1 - 1) = some line ∧
        jsIncludesL (jsLowerL line) (jsLowerL ("auth" : String).data) = true ∧
        ("Authentication flow" : String) = ⟨jsTrimL line⟩) :=
  ⟨by simp [hiddenFree]; decide,
    c7_search_exact [Entry.dir "ctx" [Entry.file "a.md" "Authentication flow\nother"]]
      (by simp [hiddenFree]; decide) "auth" "ctx/a.md" "Authentication flow" 1⟩

/-! ## Claim C10: hidden directories -/

theorem searchEntries_append (term pre : String) (a b : List Entry) :
    searchEntries term pre (a ++ b) =
      searchEntries term pre a ++ searchEntries term pre b := by
  induction a with
  | nil => rw [searchEntries, List.nil_append, List.nil_append]
  | cons e a ih => rw [List.cons_append, searchEntries, searchEntries, ih, List.append_assoc]

theorem pruneHidden_cons (e : Entry) (es : List Entry) :
    pruneHidden (e :: es) = pruneHidden [e] ++ pruneHidden es := by
  cases e with
  | file n c => simp [pruneHidden]
  | dir n sub =>
    rw [pruneHidden, pruneHidden]
    split
    · simp [pruneHidden]
    · simp [pruneHidden]

/-- The search tool's results on any tree equal its results on the
tree with every hidden directory removed. -/
theorem searchEntries_prune (term : String) :
    ∀ es, ∀ pre, searchEntries term pre es = searchEntries term pre (pruneHidden es) := by
  refine Entry.inductL
    (fun e => ∀ pre, searchEntry term pre e = searchEntries term pre (pruneHidden [e]))
    _ ?_ ?_ ?_ ?_
  · intro n c pre
    rw [show pruneHidden [Entry.file n c] = [Entry.file n c] from by simp [pruneHidden],
      searchEntries, searchEntries, List.append_nil]
  · intro n sub ih pre
    by_cases hh : strStartsWith n "." = true
    · rw [searchEntry, if_pos hh,
        show pruneHidden [Entry.dir n sub] = [] from by simp [pruneHidden, hh],
        searchEntries]
    · rw [searchEntry, if_neg hh,
        show pruneHidden [Entry.dir n sub] = [Entry.dir n (pruneHidden sub)] from by
          simp [pruneHidden, hh],
        searchEntries, searchEntries, List.append_nil, searchEntry, if_neg hh]
      exact ih (pathJoin pre n)
  · intro pre
    rw [show pruneHidden ([] : List Entry) = [] from by simp [pruneHidden]]
  · intro e es ihe ihes pre
    rw [searchEntries, pruneHidden_cons, searchEntries_append, ← ihe pre, ← ihes pre]

theorem indexEntries_append (mt : String → Nat) (cat : String) (a b : List Entry) :
    ∀ idx, indexEntries mt cat idx (a ++ b) =
      match indexEntries mt cat idx a with
      | none => none
      | some idx2 => indexEntries mt cat idx2 b := by
  induction a with
  | nil => intro idx; rw [List.nil_append, indexEntries]
  | cons e a ih =>
    intro idx
    rw [List.cons_append, indexEntries, indexEntries]
    cases indexEntry mt cat idx e with
    | none => rfl
    | some idx2 => exact ih idx2

theorem indexEntry_file_isSome (mt : String → Nat) (cat : String) (idx : Index)
    (n c : String) : ∃ idx2, indexEntry mt cat idx (Entry.file n c) = some idx2 := by
  rw [indexEntry]
  split
  · exact ⟨_, rfl⟩
  · exact ⟨_, rfl⟩

/-- Under `indexOK` (no visited hidden directory has a `.md` name),
the indexer's run on any tree equals its run on the tree with every
hidden directory removed. -/
theorem indexEntries_prune (mt : String → Nat) :
    ∀ es, indexOK es = true → ∀ cat idx,
      indexEntries mt cat idx es = indexEntries mt cat idx (pruneHidden es) := by
  refine Entry.inductL
    (fun e => indexOK [e] = true → ∀ cat idx,
      indexEntry mt cat idx e = indexEntries mt cat idx (pruneHidden [e]))
    _ ?_ ?_ ?_ ?_
  · intro n c _ cat idx
    rw [show pruneHidden [Entry.file n c] = [Entry.file n c] from by simp [pruneHidden]]
    obtain ⟨idx2, h2⟩ := indexEntry_file_isSome mt cat idx n c
    simp only [indexEntries, h2]
  · intro n sub ih hok cat idx
    by_cases hh : strStartsWith n "." = true
    · have hnmd : strEndsWith n ".md" = false := by
        simp only [indexOK, hh, if_true, Bool.and_eq_true, Bool.not_eq_true'] at hok
        exact hok.1
      rw [indexEntry, if_neg (fun hcon => hcon hh), if_neg (by simp [hnmd]),
        show pruneHidden [Entry.dir n sub] = [] from by simp [pruneHidden, hh],
        indexEntries]
    · have hsub : indexOK sub = true := by
        simp only [indexOK, hh, if_false, Bool.and_eq_true] at hok
        exact hok.1
      rw [indexEntry, if_pos hh,
        show pruneHidden [Entry.dir n sub] = [Entry.dir n (pruneHidden sub)] from by
          simp [pruneHidden, hh]]
      simp only [indexEntries, indexEntry, if_pos hh]
      rw [← ih hsub (pathJoin cat n)]
      cases indexEntries mt (pathJoin cat n)
          { idx with categories := idx.categories ++ [(pathJoin cat n, [])] } sub with
      | none => rfl
      | some idx2 => rfl
  · intro _ cat idx
    rw [show pruneHidden ([] : List Entry) = [] from by simp [pruneHidden]]
  · intro e es ihe ihes hok cat idx
    have hoke : indexOK [e] = true := by
      cases e with
      | file n c => simp [indexOK]
      | dir n sub =>
        rw [indexOK] at hok ⊢
        simp only [Bool.and_eq_true] at hok ⊢
        exact ⟨hok.1, by simp [indexOK]⟩
    have hokes : indexOK es = true := by
      cases e with
      | file n c => rw [indexOK] at hok; exact hok
      | dir n sub =>
        rw [indexOK] at hok
        simp only [Bool.and_eq_true] at hok
        exact hok.2
    rw [indexEntries, pruneHidden_cons, indexEntries_append, ← ihe hoke cat idx]
    cases indexEntry mt cat idx e with
    | none => rfl
    | some idx2 => exact ihes hokes cat idx2

theorem mem_browseEntries_of_mem (indent : String) (l : String) :
    ∀ (es : List Entry) (e : Entry), e ∈ es → l ∈ browseEntry indent e →
      l ∈ browseEntries indent es := by
  intro es
  induction es with
  | nil => intro e he _; exact absurd he (List.not_mem_nil e)
  | cons e2 es ih =>
    intro e he hl
    rw [browseEntries, List.mem_append]
    rcases List.mem_cons.mp he with rfl | hmem
    · exact Or.inl hl
    · exact Or.inr (ih e hmem hl)

set_option linter.unusedVariables false in
/-- C10 (confirmed): the browse tool prints a folder header for a
hidden directory and the leaf lines of the Markdown files inside it,
while the search tool and the indexer behave exactly as if every
hidden directory had been removed from the tree — so a hidden
directory's Markdown files appear in browse output but never in search
results or in the index.  (The indexer hypothesis `indexOK` excludes
the pathological case of a hidden directory whose own name ends in
`.md`, on which the indexer crashes with `EISDIR` instead of skipping
it.) -/
theorem c10_hidden_dirs (es : List Entry) (hname : String) (sub : List Entry)
    (fname fcontent : String)
    (hhid : strStartsWith hname "." = true)
    (hdir : Entry.dir hname sub ∈ es)
    (hfile : Entry.file fname fcontent ∈ sub)
    (hmd : strEndsWith fname ".md" = true)
    (hok : indexOK es = true) :
    (("📁 " ++ hname ++ "/") ∈ browseEntries "" es ∧
      ("  📄 " ++ fname) ∈ browseEntries "" es) ∧
    (∀ q pre, searchEntries q pre es = searchEntries q pre (pruneHidden es)) ∧
    ∀ mt now, buildIndex mt now es = buildIndex mt now (pruneHidden es) := by
  refine ⟨⟨?_, ?_⟩, fun q pre => searchEntries_prune q es pre, fun mt now => ?_⟩
  · apply mem_browseEntries_of_mem "" _ es _ hdir
    rw [browseEntry, show ("" ++ "📁 " : String) = "📁 " from by decide]
    exact List.mem_cons_self _ _
  · apply mem_browseEntries_of_mem "" _ es _ hdir
    rw [browseEntry]
    apply List.mem_cons_of_mem
    rw [show ("" ++ "  " : String) = "  " from by decide]
    apply mem_browseEntries_of_mem "  " _ sub _ hfile
    rw [browseEntry, if_pos hmd, show ("  " ++ "📄 " : String) = "  📄 " from by decide]
    exact List.mem_singleton.mpr rfl
  · rw [buildIndex, buildIndex]
    exact indexEntries_prune mt es hok "" (emptyIndex now)

/-- Witness for C10 at a concrete tree containing a hidden directory
with a Markdown file. -/
theorem c10_hidden_dirs_witness :
    strStartsWith ".hid" "." = true ∧
    Entry.dir ".hid" [Entry.file "h.md" "x"] ∈
      [Entry.dir ".hid" [Entry.file "h.md" "x"], Entry.file "top.md" "y"] ∧
    Entry.file "h.md" "x" ∈ [Entry.file "h.md" "x"] ∧
    strEndsWith "h.md" ".md" = true ∧
    indexOK [Entry.dir ".hid" [Entry.file "h.md" "x"], Entry.file "top.md" "y"] = true ∧
    ((("📁 " ++ ".hid" ++ "/") ∈ browseEntries ""
        [Entry.dir ".hid" [Entry.file "h.md" "x"], Entry.file "top.md" "y"] ∧
      ("  📄 " ++ "h.md") ∈ browseEntries ""
        [Entry.dir ".hid" [Entry.file "h.md" "x"], Entry.file "top.md" "y"]) ∧
    (∀ q pre, searchEntries q pre
        [Entry.dir ".hid" [Entry.file "h.md" "x"], Entry.file "top.md" "y"] =
      searchEntries q pre (pruneHidden
        [Entry.dir ".hid" [Entry.file "h.md" "x"], Entry.file "top.md" "y"])) ∧
    ∀ mt now, buildIndex mt now
        [Entry.dir ".hid" [Entry.file "h.md" "x"], Entry.file "top.md" "y"] =
      buildIndex mt now (pruneHidden
        [Entry.dir ".hid" [Entry.file "h.md" "x"], Entry.file "top.md" "y"])) :=
  ⟨by decide, List.mem_cons_self _ _, List.mem_cons_self _ _, by decide,
    by simp [indexOK]; decide,
    c10_hidden_dirs _ ".hid" [Entry.file "h.md" "x"] "h.md" "x"
      (by decide) (List.mem_cons_self _ _) (List.mem_cons_self _ _) (by decide)
      (by simp [indexOK]; decide)⟩

/-! ## Claim C8: indexer idempotence -/

theorem tagsFold_updated (rel : String) (tags : List String) :
    ∀ (i : Index) (u : String),
      tags.foldl (fun i tag => { i with tags := upsertPush i.tags tag rel })
          { i with updated := u } =
        { tags.foldl (fun i tag => { i with tags := upsertPush i.tags tag rel }) i
            with updated := u } := by
  induction tags with
  | nil => intro i u; rfl
  | cons t ts ih =>
    intro i u
    rw [List.foldl_cons, List.foldl_cons]
    exact ih { i with tags := upsertPush i.tags t rel } u

/-- The indexer never reads the `updated` field: starting it on an
index whose `updated` differs only relabels the result. -/
theorem indexEntries_updated (mt : String → Nat) :
    ∀ es, ∀ (cat : String) (idx : Index) (u : String),
      indexEntries mt cat { idx with updated := u } es =
        (indexEntries mt cat idx es).map (fun i => { i with updated := u }) := by
  refine Entry.inductL
    (fun e => ∀ (cat : String) (idx : Index) (u : String),
      indexEntry mt cat { idx with updated := u } e =
        (indexEntry mt cat idx e).map (fun i => { i with updated := u }))
    _ ?_ ?_ ?_ ?_
  · intro n c cat idx u
    rw [indexEntry, indexEntry]
    by_cases h : strEndsWith n ".md" = true
    · rw [if_pos h, if_pos h]
      by_cases hcat : cat = ""
      · subst hcat
        simp only [if_pos, Option.map_some']
        exact congrArg some (tagsFold_updated (pathJoin "" n) (extractMetadata c).tags
          { idx with files := idx.files ++ [(pathJoin "" n, mkFileEntry mt "" n c)] } u)
      · simp only [if_neg hcat, Option.map_some']
        exact congrArg some (tagsFold_updated (pathJoin cat n) (extractMetadata c).tags
          { idx with
              files := idx.files ++ [(pathJoin cat n, mkFileEntry mt cat n c)],
              categories := pushAssoc idx.categories cat (pathJoin cat n) } u)
    · rw [if_neg h, if_neg h, Option.map_some']
  · intro n sub ih cat idx u
    rw [indexEntry, indexEntry]
    by_cases hh : ¬ strStartsWith n "." = true
    · rw [if_pos hh, if_pos hh]
      exact ih (pathJoin cat n) { idx with categories := idx.categories ++
        [(pathJoin cat n, [])] } u
    · rw [if_neg hh, if_neg hh]
      by_cases hmd : strEndsWith n ".md" = true
      · rw [if_pos hmd, if_pos hmd, Option.map_none']
      · rw [if_neg hmd, if_neg hmd, Option.map_some']
  · intro cat idx u
    rw [indexEntries, indexEntries, Option.map_some']
  · intro e es ihe ihes cat idx u
    rw [indexEntries, indexEntries, ihe]
    cases indexEntry mt cat idx e with
    | none => rfl
    | some idx2 =>
      rw [Option.map_some']
      exact ihes cat idx2 u

theorem pathJoin_endsWith_md (cat n : String) (h : strEndsWith n ".md" = true) :
    strEndsWith (pathJoin cat n) ".md" = true := by
  rw [pathJoin]
  split
  · exact h
  · rw [strEndsWith, List.isSuffixOf_iff_suffix] at h ⊢
    have hn : n.data <:+ (cat ++ "/" ++ n).data := by
      rw [String.data_append]
      exact List.suffix_append _ _
    exact h.trans hn

/-- The index depends on the mtime map only at `.md` relative paths. -/
theorem indexEntries_mt_congr (mt1 mt2 : String → Nat)
    (hmt : ∀ p, strEndsWith p ".md" = true → mt2 p = mt1 p) :
    ∀ es, ∀ (cat : String) (idx : Index),
      indexEntries mt2 cat idx es = indexEntries mt1 cat idx es := by
  refine Entry.inductL
    (fun e => ∀ (cat : String) (idx : Index),
      indexEntry mt2 cat idx e = indexEntry mt1 cat idx e)
    _ ?_ ?_ ?_ ?_
  · intro n c cat idx
    rw [indexEntry, indexEntry]
    by_cases h : strEndsWith n ".md" = true
    · rw [if_pos h, if_pos h, mkFileEntry, mkFileEntry,
        hmt (pathJoin cat n) (pathJoin_endsWith_md cat n h)]
    · rw [if_neg h, if_neg h]
  · intro n sub ih cat idx
    rw [indexEntry, indexEntry]
    by_cases hh : ¬ strStartsWith n "." = true
    · rw [if_pos hh, if_pos hh]
      exact ih (pathJoin cat n) _
    · rw [if_neg hh, if_neg hh]
  · intro cat idx
    rfl
  · intro e es ihe ihes cat idx
    rw [indexEntries, indexEntries, ihe]
    cases indexEntry mt1 cat idx e with
    | none => rfl
    | some idx2 => exact ihes cat idx2

theorem indexEntry_nonmd_file (mt : String → Nat) (cat : String) (idx : Index)
    (n c : String) (h : strEndsWith n ".md" = false) :
    indexEntry mt cat idx (Entry.file n c) = some idx := by
  rw [indexEntry, if_neg (by simp [h])]

/-- Writing a file whose name does not end in `.md` directly under the
root (such as the hidden `.index.json`) is invisible to the indexer. -/
theorem indexEntries_writeFile (mt : String → Nat) (fname c : String)
    (hf : strEndsWith fname ".md" = false) :
    ∀ es es2, writeFileRoot es fname c = some es2 →
      ∀ (cat : String) (idx : Index),
        indexEntries mt cat idx es2 = indexEntries mt cat idx es := by
  intro es
  induction es with
  | nil =>
    intro es2 hw cat idx
    rw [writeFileRoot, Option.some.injEq] at hw
    subst hw
    simp only [indexEntries, indexEntry_nonmd_file mt cat idx fname c hf]
  | cons e rest ih =>
    cases e with
    | file n c0 =>
      intro es2 hw cat idx
      rw [writeFileRoot] at hw
      by_cases hn : n = fname
      · rw [if_pos hn, Option.some.injEq] at hw
        subst hw
        subst hn
        simp only [indexEntries, indexEntry_nonmd_file mt cat idx n c hf,
          indexEntry_nonmd_file mt cat idx n c0 hf]
      · rw [if_neg hn] at hw
        obtain ⟨es3, hrest, heq⟩ := Option.map_eq_some'.mp hw
        subst heq
        rw [indexEntries, indexEntries]
        cases indexEntry mt cat idx (Entry.file n c0) with
        | none => rfl
        | some idx2 => exact ih es3 hrest cat idx2
    | dir n sub =>
      intro es2 hw cat idx
      rw [writeFileRoot] at hw
      by_cases hn : n = fname
      · rw [if_pos hn] at hw
        exact absurd hw (Option.noConfusion)
      · rw [if_neg hn] at hw
        obtain ⟨es3, hrest, heq⟩ := Option.map_eq_some'.mp hw
        subst heq
        rw [indexEntries, indexEntries]
        cases indexEntry mt cat idx (Entry.dir n sub) with
        | none => rfl
        | some idx2 => exact ih es3 hrest cat idx2

/-- C8 (confirmed): run the indexer once (mtime map `mt1`, timestamp
`t1`), write any content to the hidden `.index.json` at the root, and
run it again (timestamp `t2`) with an mtime map that agrees with `mt1`
on every `.md` path (no filesystem changes other than the index
write).  The second index equals the first except for the `updated`
field; since `JSON.stringify` is deterministic on equal objects, the
serialized output is byte-identical except for `updated`. -/
theorem c8_index_idempotent (es : List Entry) (mt1 mt2 : String → Nat)
    (t1 t2 : String) (idx1 : Index) (c : String) (es2 : List Entry)
    (h1 : buildIndex mt1 t1 es = some idx1)
    (hw : writeFileRoot es ".index.json" c = some es2)
    (hmt : ∀ p, strEndsWith p ".md" = true → mt2 p = mt1 p) :
    buildIndex mt2 t2 es2 = some { idx1 with updated := t2 } := by
  rw [buildIndex,
    indexEntries_writeFile mt2 ".index.json" c (by decide) es es2 hw,
    indexEntries_mt_congr mt1 mt2 hmt,
    show emptyIndex t2 = { emptyIndex t1 with updated := t2 } from rfl,
    indexEntries_updated, ← buildIndex, h1, Option.map_some']

/-- Witness for C8 at a concrete tree. -/
theorem c8_index_idempotent_witness :
    buildIndex (fun _ => 3) "T1" [Entry.file "a.md" "hello"] =
      some ⟨"T1", [("a.md", ⟨"", 5, 3, "a", [], "hello"⟩)], [], []⟩ ∧
    writeFileRoot [Entry.file "a.md" "hello"] ".index.json" "serialized-index" =
      some [Entry.file "a.md" "hello", Entry.file ".index.json" "serialized-index"] ∧
    (∀ p, strEndsWith p ".md" = true → (fun _ => 3 : String → Nat) p = 3) ∧
    buildIndex (fun _ => 3) "T2"
        [Entry.file "a.md" "hello", Entry.file ".index.json" "serialized-index"] =
      some ⟨"T2", [("a.md", ⟨"", 5, 3, "a", [], "hello"⟩)], [], []⟩ := by
  have h1 : buildIndex (fun _ => 3) "T1" [Entry.file "a.md" "hello"] =
      some ⟨"T1", [("a.md", ⟨"", 5, 3, "a", [], "hello"⟩)], [], []⟩ := by
    have hmd : extractMetadata "hello" = ⟨"", [], "hello"⟩ := by decide
    have hend : strEndsWith "a.md" ".md" = true := by decide
    have hsize : ("hello" : String).utf8ByteSize = 5 := by decide
    have hrf : (⟨replaceFirstL ".md".data [] "a.md".data⟩ : String) = "a" := by decide
    have hne : (("hello" : String) = "") = False := by decide
    simp [buildIndex, indexEntries, indexEntry, mkFileEntry, hmd, hend, hsize, hrf,
      hne, pathJoin, emptyIndex]
  refine ⟨h1, rfl, fun p _ => rfl, ?_⟩
  exact c8_index_idempotent [Entry.file "a.md" "hello"] (fun _ => 3) (fun _ => 3)
    "T1" "T2" ⟨"T1", [("a.md", ⟨"", 5, 3, "a", [], "hello"⟩)], [], []⟩
    "serialized-index" _ h1 rfl (fun p _ => rfl)

/-! ## Claim C9: root-level files -/

theorem tagsFold_files (rel : String) (tags : List String) :
    ∀ i : Index,
      (tags.foldl (fun i tag => { i with tags := upsertPush i.tags tag rel }) i).files =
        i.files := by
  induction tags with
  | nil => intro i; rfl
  | cons t ts ih =>
    intro i
    rw [List.foldl_cons]
    exact ih { i with tags := upsertPush i.tags t rel }

theorem tagsFold_categories (rel : String) (tags : List String) :
    ∀ i : Index,
      (tags.foldl (fun i tag =>
        { i with tags := upsertPush i.tags tag rel }) i).categories =
        i.categories := by
  induction tags with
  | nil => intro i; rfl
  | cons t ts ih =>
    intro i
    rw [List.foldl_cons]
    exact ih { i with tags := upsertPush i.tags t rel }

theorem filesSpec_cons (mt : String → Nat) (cat : String) (e : Entry)
    (rest : List Entry) :
    filesSpec mt cat (e :: rest) = filesSpec mt cat [e] ++ filesSpec mt cat rest := by
  cases e with
  | file n c => simp [filesSpec]
  | dir n sub => simp [filesSpec]

/-- The `files` mapping built by the indexer: the input's files
followed by one record per visible Markdown file, in traversal
order. -/
theorem indexEntries_files (mt : String → Nat) :
    ∀ es, ∀ (cat : String) (idx idx2 : Index),
      indexEntries mt cat idx es = some idx2 →
      idx2.files = idx.files ++ filesSpec mt cat es := by
  refine Entry.inductL
    (fun e => ∀ (cat : String) (idx idx2 : Index),
      indexEntry mt cat idx e = some idx2 →
      idx2.files = idx.files ++ filesSpec mt cat [e])
    _ ?_ ?_ ?_ ?_
  · intro n c cat idx idx2 h
    rw [indexEntry] at h
    by_cases hmd : strEndsWith n ".md" = true
    · rw [if_pos hmd, Option.some.injEq] at h
      subst h
      rw [tagsFold_files]
      by_cases hcat : cat = ""
      · subst hcat
        simp [filesSpec, hmd]
      · simp [filesSpec, hmd, if_neg hcat]
    · rw [if_neg hmd, Option.some.injEq] at h
      subst h
      simp only [Bool.not_eq_true] at hmd
      simp [filesSpec, hmd]
  · intro n sub ih cat idx idx2 h
    rw [indexEntry] at h
    by_cases hh : ¬ strStartsWith n "." = true
    · rw [if_pos hh] at h
      have hsub := ih (pathJoin cat n) _ _ h
      simp only [Bool.not_eq_true] at hh
      simpa [filesSpec, hh] using hsub
    · rw [if_neg hh] at h
      by_cases hmd : strEndsWith n ".md" = true
      · rw [if_pos hmd] at h
        exact absurd h (Option.noConfusion)
      · rw [if_neg hmd, Option.some.injEq] at h
        subst h
        have hh2 : strStartsWith n "." = true := by
          by_contra hcon
          exact hh hcon
        simp [filesSpec, hh2]
  · intro cat idx idx2 h
    rw [indexEntries, Option.some.injEq] at h
    subst h
    simp [filesSpec]
  · intro e es ihe ihes cat idx idx2 h
    rw [indexEntries] at h
    cases hm : indexEntry mt cat idx e with
    | none => rw [hm] at h; exact absurd h (Option.noConfusion)
    | some idxm =>
      rw [hm] at h
      rw [filesSpec_cons, ihes cat idxm idx2 h, ihe cat idx idxm hm, List.append_assoc]

theorem mem_pushAssoc_val :
    ∀ (l : List (String × List String)) (k v : String) (kL : String × List String),
      kL ∈ pushAssoc l k v → ∀ p ∈ kL.2, (∃ kL0 ∈ l, p ∈ kL0.2) ∨ p = v := by
  intro l
  induction l with
  | nil =>
    intro k v kL h
    simp [pushAssoc] at h
  | cons hd rest ih =>
    intro k v kL h p hp
    obtain ⟨k2, L⟩ := hd
    rw [pushAssoc] at h
    by_cases hk : k2 = k
    · rw [if_pos hk] at h
      rcases List.mem_cons.mp h with rfl | htail
      · rcases List.mem_append.mp hp with hL | hv
        · exact Or.inl ⟨(k2, L), List.mem_cons_self _ _, hL⟩
        · exact Or.inr (List.mem_singleton.mp hv)
      · exact Or.inl ⟨kL, List.mem_cons_of_mem _ htail, hp⟩
    · rw [if_neg hk] at h
      rcases List.mem_cons.mp h with rfl | htail
      · exact Or.inl ⟨(k2, L), List.mem_cons_self _ _, hp⟩
      · rcases ih k v kL htail p hp with ⟨kL0, h0, hp0⟩ | hv
        · exact Or.inl ⟨kL0, List.mem_cons_of_mem _ h0, hp0⟩
        · exact Or.inr hv

/-- Every path the indexer ever pushes onto a categories list is of
the form `category ++ "/" ++ name` with a nonempty category, so it
contains a `/`. -/
theorem indexEntries_slashInv (mt : String → Nat) :
    ∀ es, ∀ (cat : String) (idx idx2 : Index),
      indexEntries mt cat idx es = some idx2 →
      catsSlashInv idx.categories → catsSlashInv idx2.categories := by
  refine Entry.inductL
    (fun e => ∀ (cat : String) (idx idx2 : Index),
      indexEntry mt cat idx e = some idx2 →
      catsSlashInv idx.categories → catsSlashInv idx2.categories)
    _ ?_ ?_ ?_ ?_
  · intro n c cat idx idx2 h hinv
    rw [indexEntry] at h
    by_cases hmd : strEndsWith n ".md" = true
    · rw [if_pos hmd, Option.some.injEq] at h
      subst h
      intro kL hkL p hp
      rw [tagsFold_categories] at hkL
      by_cases hcat : cat = ""
      · rw [if_pos hcat] at hkL
        exact hinv kL hkL p hp
      · rw [if_neg hcat] at hkL
        rcases mem_pushAssoc_val _ _ _ kL hkL p hp with ⟨kL0, h0, hp0⟩ | rfl
        · exact hinv kL0 h0 p hp0
        · rw [pathJoin, if_neg hcat, String.data_append, String.data_append]
          exact List.mem_append_left _ (List.mem_append_right _ (List.mem_cons_self _ _))
    · rw [if_neg hmd, Option.some.injEq] at h
      subst h
      exact hinv
  · intro n sub ih cat idx idx2 h hinv
    rw [indexEntry] at h
    by_cases hh : ¬ strStartsWith n "." = true
    · rw [if_pos hh] at h
      refine ih (pathJoin cat n) _ _ h ?_
      intro kL hkL p hp
      rcases List.mem_append.mp hkL with hold | hnew
      · exact hinv kL hold p hp
      · rw [List.mem_singleton] at hnew
        subst hnew
        exact absurd hp (List.not_mem_nil p)
    · rw [if_neg hh] at h
      by_cases hmd : strEndsWith n ".md" = true
      · rw [if_pos hmd] at h
        exact absurd h (Option.noConfusion)
      · rw [if_neg hmd, Option.some.injEq] at h
        subst h
        exact hinv
  · intro cat idx idx2 h hinv
    rw [indexEntries, Option.some.injEq] at h
    subst h
    exact hinv
  · intro e es ihe ihes cat idx idx2 h hinv
    rw [indexEntries] at h
    cases hm : indexEntry mt cat idx e with
    | none => rw [hm] at h; exact absurd h (Option.noConfusion)
    | some idxm =>
      rw [hm] at h
      exact ihes cat idxm idx2 h (ihe cat idx idxm hm hinv)

theorem mem_filesSpec (mt : String → Nat) :
    ∀ (es : List Entry) (cat n c : String),
      Entry.file n c ∈ es → strEndsWith n ".md" = true →
      (pathJoin cat n, mkFileEntry mt cat n c) ∈ filesSpec mt cat es := by
  intro es
  induction es with
  | nil =>
    intro cat n c hmem _
    exact absurd hmem (List.not_mem_nil _)
  | cons e rest ih =>
    intro cat n c hmem hmd
    rw [filesSpec_cons, List.mem_append]
    rcases List.mem_cons.mp hmem with rfl | htail
    · exact Or.inl (by simp [filesSpec, hmd])
    · exact Or.inr (ih cat n c htail hmd)

/-- C9 (confirmed): a Markdown file sitting directly at the
memory-bank root gets an index entry whose `category` field is the
empty string, and its relative path (its bare file name) appears in no
list of the `categories` mapping. -/
theorem c9_root_files (es : List Entry) (mt : String → Nat) (now : String)
    (idx : Index) (f c : String)
    (hmem : Entry.file f c ∈ es) (hmd : strEndsWith f ".md" = true)
    (hslash : '/' ∉ f.data)
    (hidx : buildIndex mt now es = some idx) :
    (f, mkFileEntry mt "" f c) ∈ idx.files ∧
    (mkFileEntry mt "" f c).category = "" ∧
    ∀ kL ∈ idx.categories, f ∉ kL.2 := by
  refine ⟨?_, rfl, ?_⟩
  · have hfiles := indexEntries_files mt es "" (emptyIndex now) idx hidx
    rw [hfiles]
    have hmemf := mem_filesSpec mt es "" f c hmem hmd
    rw [show pathJoin "" f = f from by simp [pathJoin]] at hmemf
    simpa [emptyIndex] using hmemf
  · intro kL hkL hfin
    have hinv := indexEntries_slashInv mt es "" (emptyIndex now) idx hidx
      (by intro kL h; simp [emptyIndex] at h)
    exact hslash (hinv kL hkL f hfin)

/-- Witness for C9 at a concrete tree with a root-level Markdown file
and a populated category. -/
theorem c9_root_files_witness :
    Entry.file "top.md" "hi" ∈
      [Entry.file "top.md" "hi", Entry.dir "a" [Entry.file "b.md" "x"]] ∧
    strEndsWith "top.md" ".md" = true ∧
    '/' ∉ ("top.md" : String).data ∧
    buildIndex (fun _ => 0) "T"
        [Entry.file "top.md" "hi", Entry.dir "a" [Entry.file "b.md" "x"]] =
      some ⟨"T",
        [("top.md", ⟨"", 2, 0, "top", [], "hi"⟩), ("a/b.md", ⟨"a", 1, 0, "b", [], "x"⟩)],
        [("a", ["a/b.md"])], []⟩ ∧
    (("top.md", mkFileEntry (fun _ => 0) "" "top.md" "hi") ∈
        (⟨"T",
          [("top.md", ⟨"", 2, 0, "top", [], "hi"⟩),
           ("a/b.md", ⟨"a", 1, 0, "b", [], "x"⟩)],
          [("a", ["a/b.md"])], []⟩ : Index).files ∧
      (mkFileEntry (fun _ => 0) "" "top.md" "hi").category = "" ∧
      ∀ kL ∈ (⟨"T",
          [("top.md", ⟨"", 2, 0, "top", [], "hi"⟩),
           ("a/b.md", ⟨"a", 1, 0, "b", [], "x"⟩)],
          [("a", ["a/b.md"])], []⟩ : Index).categories, "top.md" ∉ kL.2) := by
  have hidx : buildIndex (fun _ => 0) "T"
      [Entry.file "top.md" "hi", Entry.dir "a" [Entry.file "b.md" "x"]] =
      some ⟨"T",
        [("top.md", ⟨"", 2, 0, "top", [], "hi"⟩), ("a/b.md", ⟨"a", 1, 0, "b", [], "x"⟩)],
        [("a", ["a/b.md"])], []⟩ := by
    have h1 : extractMetadata "hi" = ⟨"", [], "hi"⟩ := by decide
    have h2 : extractMetadata "x" = ⟨"", [], "x"⟩ := by decide
    have h3 : strEndsWith "top.md" ".md" = true := by decide
    have h4 : strEndsWith "b.md" ".md" = true := by decide
    have h5 : strStartsWith "a" "." = false := by decide
    have h6 : (⟨replaceFirstL ".md".data [] "top.md".data⟩ : String) = "top" := by decide
    have h7 : (⟨replaceFirstL ".md".data [] "b.md".data⟩ : String) = "b" := by decide
    have h8 : ("hi" : String).utf8ByteSize = 2 := by decide
    have h9 : ("x" : String).utf8ByteSize = 1 := by decide
    have h10 : (("hi" : String) = "") = False := by decide
    have h11 : (("x" : String) = "") = False := by decide
    simp [buildIndex, indexEntries, indexEntry, mkFileEntry, emptyIndex, pathJoin,
      pushAssoc, h1, h2, h3, h4, h5, h6, h7, h8, h9, h10, h11]
  refine ⟨List.mem_cons_self _ _, by decide, by decide, hidx, ?_⟩
  exact c9_root_files
    [Entry.file "top.md" "hi", Entry.dir "a" [Entry.file "b.md" "x"]]
    (fun _ => 0) "T" _ "top.md" "hi" (List.mem_cons_self _ _) (by decide)
    (by decide) hidx

/-! ## Claim C4: the categories mapping -/

theorem appendAssoc_nil (l : List (String × List String)) (k : String) :
    appendAssoc l k [] = l := by
  induction l with
  | nil => rfl
  | cons hd rest ih =>
    obtain ⟨k2, L⟩ := hd
    rw [appendAssoc]
    split
    · rw [List.append_nil]
    · rw [ih]

theorem pushAssoc_eq_appendAssoc (l : List (String × List String)) (k v : String) :
    pushAssoc l k v = appendAssoc l k [v] := by
  induction l with
  | nil => rfl
  | cons hd rest ih =>
    obtain ⟨k2, L⟩ := hd
    rw [pushAssoc, appendAssoc]
    split
    · rfl
    · rw [ih]

theorem appendAssoc_appendAssoc (l : List (String × List String)) (k : String)
    (v1 v2 : List String) :
    appendAssoc (appendAssoc l k v1) k v2 = appendAssoc l k (v1 ++ v2) := by
  induction l with
  | nil => rfl
  | cons hd rest ih =>
    obtain ⟨k2, L⟩ := hd
    rw [appendAssoc]
    by_cases hk : k2 = k
    · rw [if_pos hk, appendAssoc, if_pos hk, appendAssoc, if_pos hk, List.append_assoc]
    · rw [if_neg hk, appendAssoc, if_neg hk, appendAssoc, if_neg hk, ih]

theorem keysOf_appendAssoc (l : List (String × List String)) (k : String)
    (vs : List String) : keysOf (appendAssoc l k vs) = keysOf l := by
  induction l with
  | nil => rfl
  | cons hd rest ih =>
    obtain ⟨k2, L⟩ := hd
    rw [appendAssoc]
    split
    · rfl
    · show (k2, L).1 :: keysOf (appendAssoc rest k vs) = keysOf ((k2, L) :: rest)
      rw [ih]
      rfl

theorem appendAssoc_append (l l2 : List (String × List String)) (k : String)
    (vs : List String) (hk : k ∈ keysOf l) :
    appendAssoc (l ++ l2) k vs = appendAssoc l k vs ++ l2 := by
  induction l with
  | nil => exact absurd hk (List.not_mem_nil k)
  | cons hd rest ih =>
    obtain ⟨k2, L⟩ := hd
    rw [List.cons_append, appendAssoc, appendAssoc]
    by_cases hk2 : k2 = k
    · rw [if_pos hk2, if_pos hk2, List.cons_append]
    · rw [if_neg hk2, if_neg hk2, List.cons_append, ih]
      rcases List.mem_cons.mp hk with heq | hmem
      · exact absurd heq.symm hk2
      · exact hmem

theorem appendAssoc_not_mem_append (l : List (String × List String)) (k : String)
    (L vs : List String) (hk : k ∉ keysOf l) :
    appendAssoc (l ++ [(k, L)]) k vs = l ++ [(k, L ++ vs)] := by
  induction l with
  | nil =>
    rw [List.nil_append, List.nil_append, appendAssoc, if_pos rfl]
  | cons hd rest ih =>
    obtain ⟨k2, L2⟩ := hd
    have hk2 : k2 ≠ k := fun h => hk (by rw [← h]; exact List.mem_cons_self _ _)
    rw [List.cons_append, appendAssoc, if_neg hk2, List.cons_append,
      ih (fun h => hk (List.mem_cons_of_mem _ h))]

theorem bumpCats_nil (l : List (String × List String)) (cat : String) :
    bumpCats l cat [] = l := by
  rw [bumpCats]
  split
  · rfl
  · exact appendAssoc_nil l cat

theorem keysOf_bumpCats (l : List (String × List String)) (cat : String)
    (vs : List String) : keysOf (bumpCats l cat vs) = keysOf l := by
  rw [bumpCats]
  split
  · rfl
  · exact keysOf_appendAssoc l cat vs

theorem keysOf_append (a b : List (String × List String)) :
    keysOf (a ++ b) = keysOf a ++ keysOf b := by
  rw [keysOf, keysOf, keysOf, List.map_append]

theorem catsSpec_cons (cat : String) (e : Entry) (rest : List Entry) :
    catsSpec cat (e :: rest) = catsSpec cat [e] ++ catsSpec cat rest := by
  cases e with
  | file n c => simp [catsSpec]
  | dir n sub =>
    rw [catsSpec, catsSpec]
    split
    · simp [catsSpec]
    · simp [catsSpec]

theorem directMd_cons (cat : String) (e : Entry) (rest : List Entry) :
    directMd cat (e :: rest) = directMd cat [e] ++ directMd cat rest := by
  cases e with
  | file n c => simp [directMd]
  | dir n sub => simp [directMd]

theorem pathJoin_ne_empty (cat n : String) (hn : n ≠ "") : pathJoin cat n ≠ "" := by
  rw [pathJoin]
  split
  · exact hn
  · intro hcon
    have := congrArg String.data hcon
    rw [String.data_append, String.data_append] at this
    have h2 := congrArg List.length this
    simp at h2

theorem pathJoin_length_lt (cat n : String) (hn : n ≠ "") :
    cat.length < (pathJoin cat n).length := by
  have hlen : 0 < n.length := by
    cases hd : n.data with
    | nil => exact absurd (String.ext hd) hn
    | cons c cs =>
      have : n.length = n.data.length := rfl
      rw [this, hd]
      simp
  rw [pathJoin]
  split
  · rename_i hcat
    subst hcat
    simpa using hlen
  · rw [String.length_append, String.length_append]
    have : ("/" : String).length = 1 := rfl
    omega

theorem catsSpec_nil (cat : String) : catsSpec cat [] = [] := by
  rw [catsSpec]

theorem strAppend_assoc (a b c : String) : a ++ b ++ c = a ++ (b ++ c) := by
  apply String.ext
  rw [String.data_append, String.data_append, String.data_append, String.data_append,
    List.append_assoc]

theorem pathJoin_expand (cat n : String) (hc : cat ≠ "") :
    pathJoin cat n = cat ++ "/" ++ n := by
  rw [pathJoin, if_neg hc]

theorem pathJoin_data (cat n : String) :
    (pathJoin cat n).data =
      (if cat = "" then [] else cat.data ++ ['/']) ++ n.data := by
  rw [pathJoin]
  split
  · rfl
  · rw [String.data_append, String.data_append, List.append_assoc]

theorem wfNames_nil : wfNames [] = true := by
  rw [wfNames]

theorem validName_spec (s : String) (h : validName s = true) :
    s ≠ "" ∧ '/' ∉ s.data := by
  rw [validName] at h
  simpa using h

theorem wfNames_cons (e : Entry) (rest : List Entry)
    (h : wfNames (e :: rest) = true) :
    wfNames [e] = true ∧ wfNames rest = true := by
  cases e with
  | file n c =>
    rw [wfNames, Bool.and_eq_true] at h
    rw [wfNames, Bool.and_eq_true]
    exact ⟨⟨h.1, wfNames_nil⟩, h.2⟩
  | dir n sub =>
    rw [wfNames, Bool.and_eq_true, Bool.and_eq_true, Bool.and_eq_true] at h
    rw [wfNames, Bool.and_eq_true, Bool.and_eq_true, Bool.and_eq_true]
    exact ⟨⟨⟨⟨h.1.1.1, h.1.1.2⟩, h.1.2⟩, wfNames_nil⟩, h.2⟩

theorem wfNames_dir (n : String) (sub : List Entry)
    (h : wfNames [Entry.dir n sub] = true) :
    validName n = true ∧ (sub.map Entry.name).Nodup ∧ wfNames sub = true := by
  rw [wfNames, Bool.and_eq_true, Bool.and_eq_true, Bool.and_eq_true] at h
  exact ⟨h.1.1.1, by simpa using h.1.1.2, h.1.2⟩

theorem wfNames_valid_of_mem :
    ∀ es, wfNames es = true → ∀ n sub, Entry.dir n sub ∈ es → validName n = true := by
  intro es
  induction es with
  | nil =>
    intro _ n sub hmem
    exact absurd hmem (List.not_mem_nil _)
  | cons e rest ih =>
    intro h n sub hmem
    obtain ⟨he, hrest⟩ := wfNames_cons e rest h
    rcases List.mem_cons.mp hmem with rfl | htail
    · exact (wfNames_dir n sub he).1
    · exact ih hrest n sub htail

theorem keys_catsSpec_length :
    ∀ es, wfNames es = true → ∀ (cat k : String),
      k ∈ keysOf (catsSpec cat es) → cat.length < k.length := by
  refine Entry.inductL
    (fun e => wfNames [e] = true → ∀ (cat k : String),
      k ∈ keysOf (catsSpec cat [e]) → cat.length < k.length)
    _ ?_ ?_ ?_ ?_
  · intro n c _ cat k hmem
    simp [catsSpec, keysOf] at hmem
  · intro n sub ih hwf cat k hmem
    obtain ⟨hv, _, hwfsub⟩ := wfNames_dir n sub hwf
    have hn : n ≠ "" := (validName_spec n hv).1
    by_cases hh : strStartsWith n "." = true
    · rw [catsSpec, if_pos hh] at hmem
      simp [catsSpec, keysOf] at hmem
    · rw [catsSpec, if_neg hh] at hmem
      rw [catsSpec_nil, List.append_nil] at hmem
      rw [keysOf, List.map_cons] at hmem
      rcases List.mem_cons.mp hmem with rfl | htail
      · exact pathJoin_length_lt cat n hn
      · exact Nat.lt_trans (pathJoin_length_lt cat n hn)
          (ih hwfsub (pathJoin cat n) k htail)
  · intro _ cat k hmem
    simp [catsSpec, keysOf] at hmem
  · intro e rest pe qe hwf cat k hmem
    obtain ⟨he, hrest⟩ := wfNames_cons e rest hwf
    rw [catsSpec_cons, keysOf_append] at hmem
    rcases List.mem_append.mp hmem with h1 | h2
    · exact pe he cat k h1
    · exact qe hrest cat k h2

theorem keys_catsSpec_family :
    ∀ es, wfNames es = true → ∀ (cat k : String),
      k ∈ keysOf (catsSpec cat es) →
      ∃ n sub, Entry.dir n sub ∈ es ∧ memberOfFamily cat n k := by
  refine Entry.inductL
    (fun e => wfNames [e] = true → ∀ (cat k : String),
      k ∈ keysOf (catsSpec cat [e]) →
      ∃ n sub, Entry.dir n sub ∈ [e] ∧ memberOfFamily cat n k)
    _ ?_ ?_ ?_ ?_
  · intro n c _ cat k hmem
    simp [catsSpec, keysOf] at hmem
  · intro n sub ih hwf cat k hmem
    obtain ⟨hv, _, hwfsub⟩ := wfNames_dir n sub hwf
    have hn : n ≠ "" := (validName_spec n hv).1
    by_cases hh : strStartsWith n "." = true
    · rw [catsSpec, if_pos hh] at hmem
      simp [catsSpec, keysOf] at hmem
    · rw [catsSpec, if_neg hh] at hmem
      rw [catsSpec_nil, List.append_nil] at hmem
      rw [keysOf, List.map_cons] at hmem
      have hscne : pathJoin cat n ≠ "" := pathJoin_ne_empty cat n hn
      rcases List.mem_cons.mp hmem with rfl | htail
      · exact ⟨n, sub, List.mem_singleton.mpr rfl, Or.inl rfl⟩
      · obtain ⟨m, sub2, _, hfam⟩ := ih hwfsub (pathJoin cat n) k htail
        refine ⟨n, sub, List.mem_singleton.mpr rfl, ?_⟩
        rcases hfam with hk | ⟨r, hk⟩
        · rw [pathJoin_expand (pathJoin cat n) m hscne] at hk
          exact Or.inr ⟨m, hk⟩
        · rw [pathJoin_expand (pathJoin cat n) m hscne] at hk
          refine Or.inr ⟨m ++ "/" ++ r, ?_⟩
          rw [hk]
          apply String.ext
          simp [String.data_append, List.append_assoc]
  · intro _ cat k hmem
    simp [catsSpec, keysOf] at hmem
  · intro e rest pe qe hwf cat k hmem
    obtain ⟨he, hrest⟩ := wfNames_cons e rest hwf
    rw [catsSpec_cons, keysOf_append] at hmem
    rcases List.mem_append.mp hmem with h1 | h2
    · obtain ⟨n, sub, hmem1, hfam⟩ := pe he cat k h1
      exact ⟨n, sub, by rw [List.mem_singleton.mp hmem1] at *; exact List.mem_cons_self _ _,
        hfam⟩
    · obtain ⟨n, sub, hmem2, hfam⟩ := qe hrest cat k h2
      exact ⟨n, sub, List.mem_cons_of_mem _ hmem2, hfam⟩

theorem name_tail_inj :
    ∀ (a b t1 t2 : List Char), '/' ∉ a → '/' ∉ b →
      (t1 = [] ∨ ∃ r, t1 = '/' :: r) → (t2 = [] ∨ ∃ r, t2 = '/' :: r) →
      a ++ t1 = b ++ t2 → a = b := by
  intro a
  induction a with
  | nil =>
    intro b t1 t2 _ hb ht1 _ h
    rw [List.nil_append] at h
    cases b with
    | nil => rfl
    | cons d b2 =>
      rcases ht1 with rfl | ⟨r, rfl⟩
      · exact absurd h.symm (by simp)
      · rw [List.cons_append] at h
        have hd : d = '/' := (List.cons.injEq _ _ _ _ ▸ h).1.symm
        exact absurd (hd ▸ List.mem_cons_self d b2) hb
  | cons c a2 ih =>
    intro b t1 t2 ha hb ht1 ht2 h
    cases b with
    | nil =>
      rw [List.nil_append] at h
      rcases ht2 with rfl | ⟨r, rfl⟩
      · exact absurd h (by simp)
      · rw [List.cons_append] at h
        have hc : c = '/' := (List.cons.injEq _ _ _ _ ▸ h).1
        exact absurd (hc ▸ List.mem_cons_self c a2) ha
    | cons d b2 =>
      rw [List.cons_append, List.cons_append] at h
      have hcd := (List.cons.injEq _ _ _ _ ▸ h).1
      have htl := (List.cons.injEq _ _ _ _ ▸ h).2
      rw [hcd, ih b2 t1 t2 (fun hm => ha (List.mem_cons_of_mem c hm))
        (fun hm => hb (List.mem_cons_of_mem d hm)) ht1 ht2 htl]

theorem memberOfFamily_ne (cat n1 n2 k1 k2 : String)
    (h1v : validName n1 = true) (h2v : validName n2 = true) (hne : n1 ≠ n2)
    (hf1 : memberOfFamily cat n1 k1) (hf2 : memberOfFamily cat n2 k2) :
    k1 ≠ k2 := by
  intro hk
  have h1s : '/' ∉ n1.data := (validName_spec n1 h1v).2
  have h2s : '/' ∉ n2.data := (validName_spec n2 h2v).2
  have hshape : ∀ n k : String, memberOfFamily cat n k →
      ∃ t, k.data = (if cat = "" then [] else cat.data ++ ['/']) ++ (n.data ++ t) ∧
        (t = [] ∨ ∃ r, t = '/' :: r) := by
    intro n k hf
    rcases hf with hk2 | ⟨r, hk2⟩
    · refine ⟨[], ?_, Or.inl rfl⟩
      rw [hk2, pathJoin_data, List.append_nil]
    · refine ⟨'/' :: r.data, ?_, Or.inr ⟨r.data, rfl⟩⟩
      rw [hk2, String.data_append, String.data_append, pathJoin_data]
      simp [List.append_assoc]
  obtain ⟨t1, he1, ht1⟩ := hshape n1 k1 hf1
  obtain ⟨t2, he2, ht2⟩ := hshape n2 k2 hf2
  rw [hk, he2] at he1
  have hcancel := List.append_cancel_left he1.symm
  exact hne (String.ext (name_tail_inj n1.data n2.data t1 t2 h1s h2s ht1 ht2 hcancel))

theorem keys_catsSpec_nodup :
    ∀ es, (es.map Entry.name).Nodup → wfNames es = true →
      ∀ cat : String, (keysOf (catsSpec cat es)).Nodup := by
  refine Entry.inductL
    (fun e => wfNames [e] = true → ∀ cat : String, (keysOf (catsSpec cat [e])).Nodup)
    _ ?_ ?_ ?_ ?_
  · intro n c _ cat
    simp [catsSpec, keysOf]
  · intro n sub ih hwf cat
    obtain ⟨hv, hnodupSub, hwfsub⟩ := wfNames_dir n sub hwf
    by_cases hh : strStartsWith n "." = true
    · rw [catsSpec, if_pos hh]
      simp [catsSpec, keysOf]
    · rw [catsSpec, if_neg hh]
      rw [catsSpec_nil, List.append_nil]
      rw [keysOf, List.map_cons]
      refine List.Nodup.cons ?_ (ih hnodupSub hwfsub (pathJoin cat n))
      intro hmem
      exact absurd (keys_catsSpec_length sub hwfsub (pathJoin cat n) _ hmem)
        (Nat.lt_irrefl _)
  · intro _ cat
    simp [catsSpec, keysOf]
  · intro e rest pe qe hnodup hwf cat
    obtain ⟨he, hrest⟩ := wfNames_cons e rest hwf
    rw [List.map_cons, List.nodup_cons] at hnodup
    obtain ⟨hhead, htail⟩ := hnodup
    rw [catsSpec_cons, keysOf_append]
    rw [List.nodup_append]
    refine ⟨pe he cat, qe htail hrest cat, ?_⟩
    intro k hk1 hk2
    obtain ⟨n, sub, hmem1, hfam1⟩ := keys_catsSpec_family [e] he cat k hk1
    obtain ⟨n2, sub2, hmem2, hfam2⟩ := keys_catsSpec_family rest hrest cat k hk2
    have hEe : e = Entry.dir n sub := (List.mem_singleton.mp hmem1).symm
    have hv1 : validName n = true := wfNames_valid_of_mem [e] he n sub hmem1
    have hv2 : validName n2 = true := wfNames_valid_of_mem rest hrest n2 sub2 hmem2
    have hnne : n ≠ n2 := by
      intro hcon
      apply hhead
      rw [hEe, Entry.name, hcon]
      exact List.mem_map_of_mem Entry.name hmem2
    exact memberOfFamily_ne cat n n2 k k hv1 hv2 hnne hfam1 hfam2 rfl

/-- The accumulated `categories` mapping after indexing a directory's
entries: the incoming keys get the directory's own direct Markdown
paths appended (when the current category is nonempty), and one fresh
key is appended per visible directory at every depth, holding exactly
that directory's direct (non-nested) Markdown paths. -/
theorem indexEntries_cats (mt : String → Nat) :
    ∀ es (cat : String) (idx idx2 : Index),
      indexEntries mt cat idx es = some idx2 →
      (cat = "" ∨ cat ∈ keysOf idx.categories) →
      (∀ k ∈ keysOf (catsSpec cat es), k ∉ keysOf idx.categories) →
      (keysOf (catsSpec cat es)).Nodup →
      wfNames es = true →
      idx2.categories =
        bumpCats idx.categories cat (directMd cat es) ++ catsSpec cat es := by
  refine Entry.inductL
    (fun e => ∀ (cat : String) (idx idx2 : Index),
      indexEntry mt cat idx e = some idx2 →
      (cat = "" ∨ cat ∈ keysOf idx.categories) →
      (∀ k ∈ keysOf (catsSpec cat [e]), k ∉ keysOf idx.categories) →
      (keysOf (catsSpec cat [e])).Nodup →
      wfNames [e] = true →
      idx2.categories =
        bumpCats idx.categories cat (directMd cat [e]) ++ catsSpec cat [e])
    _ ?_ ?_ ?_ ?_
  · intro n c cat idx idx2 h _ _ _ _
    rw [indexEntry] at h
    by_cases hmd : strEndsWith n ".md" = true
    · rw [if_pos hmd, Option.some.injEq] at h
      subst h
      rw [tagsFold_categories]
      by_cases hcat : cat = ""
      · subst hcat
        rw [if_pos rfl]
        simp [bumpCats, catsSpec, directMd, hmd]
      · rw [if_neg hcat]
        simp [bumpCats, if_neg hcat, catsSpec, directMd, hmd,
          pushAssoc_eq_appendAssoc]
    · rw [if_neg hmd, Option.some.injEq] at h
      subst h
      simp only [Bool.not_eq_true] at hmd
      simp [catsSpec, directMd, hmd, bumpCats_nil]
  · intro n sub ih cat idx idx2 h _ h2 h3 hwf
    rw [indexEntry] at h
    by_cases hh : ¬ strStartsWith n "." = true
    · rw [if_pos hh] at h
      obtain ⟨hv, _, hwfsub⟩ := wfNames_dir n sub hwf
      have hn : n ≠ "" := (validName_spec n hv).1
      have hscne : pathJoin cat n ≠ "" := pathJoin_ne_empty cat n hn
      have hh2 : strStartsWith n "." = false := by
        simpa using hh
      have hcats1 : catsSpec cat [Entry.dir n sub] =
          (pathJoin cat n, directMd (pathJoin cat n) sub) ::
            catsSpec (pathJoin cat n) sub := by
        rw [catsSpec, if_neg (by simp [hh2]), catsSpec_nil, List.append_nil]
      rw [hcats1] at h2 h3
      rw [keysOf, List.map_cons] at h2 h3
      have hscnot : pathJoin cat n ∉ keysOf idx.categories :=
        h2 (pathJoin cat n) (List.mem_cons_self _ _)
      rw [List.nodup_cons] at h3
      have hres := ih (pathJoin cat n)
        { idx with categories := idx.categories ++ [(pathJoin cat n, [])] } idx2 h
        (Or.inr (by
          rw [keysOf_append]
          exact List.mem_append.mpr (Or.inr (List.mem_singleton.mpr rfl))))
        (by
          intro k hk
          rw [keysOf_append]
          intro hmem
          rcases List.mem_append.mp hmem with hm1 | hm2
          · exact h2 k (List.mem_cons_of_mem _ hk) hm1
          · have : k = pathJoin cat n := List.mem_singleton.mp hm2
            exact h3.1 (this ▸ hk))
        h3.2 hwfsub
      rw [hres]
      rw [show ({ idx with categories := idx.categories ++ [(pathJoin cat n, [])] } :
        Index).categories = idx.categories ++ [(pathJoin cat n, [])] from rfl]
      rw [bumpCats, if_neg hscne,
        appendAssoc_not_mem_append idx.categories (pathJoin cat n) []
          (directMd (pathJoin cat n) sub) hscnot, List.nil_append]
      rw [hcats1]
      have hdm : directMd cat [Entry.dir n sub] = [] := by
        simp [directMd]
      rw [hdm, bumpCats_nil, List.append_assoc, List.singleton_append]
    · rw [if_neg hh] at h
      by_cases hmd : strEndsWith n ".md" = true
      · rw [if_pos hmd] at h
        exact absurd h (Option.noConfusion)
      · rw [if_neg hmd, Option.some.injEq] at h
        subst h
        have hh2 : strStartsWith n "." = true := by
          by_contra hcon
          exact hh hcon
        simp [catsSpec, directMd, hh2, bumpCats_nil]
  · intro cat idx idx2 h _ _ _ _
    rw [indexEntries, Option.some.injEq] at h
    subst h
    rw [catsSpec_nil, List.append_nil]
    have : directMd cat ([] : List Entry) = [] := rfl
    rw [this, bumpCats_nil]
  · intro e rest ihe ihes cat idx idx2 h h1 h2 h3 hwf
    rw [indexEntries] at h
    cases hm : indexEntry mt cat idx e with
    | none => rw [hm] at h; exact absurd h (Option.noConfusion)
    | some idxm =>
      rw [hm] at h
      obtain ⟨hwfe, hwfrest⟩ := wfNames_cons e rest hwf
      rw [catsSpec_cons, keysOf_append] at h2 h3
      have hnd := List.nodup_append.mp h3
      have hce := ihe cat idx idxm hm h1
        (fun k hk => h2 k (List.mem_append.mpr (Or.inl hk))) hnd.1 hwfe
      have hkeysm : keysOf idxm.categories =
          keysOf idx.categories ++ keysOf (catsSpec cat [e]) := by
        rw [hce, keysOf_append, keysOf_bumpCats]
      have hcr := ihes cat idxm idx2 h
        (by
          rcases h1 with hc | hc
          · exact Or.inl hc
          · exact Or.inr (by
              rw [hkeysm]
              exact List.mem_append.mpr (Or.inl hc)))
        (by
          intro k hk
          rw [hkeysm]
          intro hmem
          rcases List.mem_append.mp hmem with hm1 | hm2
          · exact h2 k (List.mem_append.mpr (Or.inr hk)) hm1
          · exact hnd.2.2 hm2 hk)
        hnd.2.1 hwfrest
      conv_rhs => rw [directMd_cons, catsSpec_cons]
      rw [hcr, hce]
      by_cases hcat : cat = ""
      · subst hcat
        simp [bumpCats, List.append_assoc]
      · have hck : cat ∈ keysOf idx.categories := by
          rcases h1 with hc | hc
          · exact absurd hc hcat
          · exact hc
        simp only [bumpCats, if_neg hcat]
        rw [appendAssoc_append (appendAssoc idx.categories cat (directMd cat [e]))
          (catsSpec cat [e]) cat (directMd cat rest)
          (by rw [keysOf_appendAssoc]; exact hck)]
        rw [appendAssoc_appendAssoc, List.append_assoc]

theorem buildIndex_nested_example :
    buildIndex (fun _ => 0) "T"
        [Entry.dir "a" [Entry.dir "b" [Entry.file "f.md" ""]]] =
      some ⟨"T", [("a/b/f.md", ⟨"a/b", 0, 0, "f", [], ""⟩)],
        [("a", []), ("a/b", ["a/b/f.md"])], []⟩ := by
  have hmd : extractMetadata "" = ⟨"", [], ""⟩ := by decide
  have hs1 : strStartsWith "a" "." = false := by decide
  have hs2 : strStartsWith "b" "." = false := by decide
  have he1 : strEndsWith "f.md" ".md" = true := by decide
  have hp1 : pathJoin "" "a" = "a" := by decide
  have hp2 : pathJoin "a" "b" = "a/b" := by decide
  have hp3 : pathJoin "a/b" "f.md" = "a/b/f.md" := by decide
  simp [buildIndex, indexEntries, indexEntry, mkFileEntry, hmd, hs1, hs2, he1,
    hp1, hp2, hp3, emptyIndex, upsertPush, pushAssoc]
  decide

/-- C4, counterexample: on the root `[a/[b/[f.md]]]` the indexer's
`categories` object holds the non-top-level key `a/b` (every visible
directory at every depth gets a key), and the top-level key `a` maps
to the empty list rather than to all Markdown files nested under `a`:
`a/b/f.md` is recorded only under `a/b`.  Both halves of the claim
(top-level keys only; values include nested files) fail. -/
theorem c4_nested_keys_counterexample :
    ∃ idx : Index,
      buildIndex (fun _ => 0) "T"
          [Entry.dir "a" [Entry.dir "b" [Entry.file "f.md" ""]]] = some idx ∧
      idx.categories = [("a", []), ("a/b", ["a/b/f.md"])] ∧
      ("a/b", ["a/b/f.md"]) ∈ idx.categories ∧
      ("a", ["a/b/f.md"]) ∉ idx.categories := by
  refine ⟨_, buildIndex_nested_example, rfl, ?_, ?_⟩
  · decide
  · decide

/-- C4 (amended): in the index produced by the indexer on a
well-formed root (distinct sibling names, legal entry names), the
`categories` object has one key per visible (non-hidden) directory at
every depth — its slash-joined relative path, in pre-order — and maps
each such key to the relative paths of the Markdown files directly
inside that directory, excluding files in nested subdirectories
(those appear under the subdirectory's own key). -/
theorem c4_categories_per_directory (es : List Entry) (mt : String → Nat)
    (now : String) (idx : Index) (hwf : wfRoot es = true)
    (hidx : buildIndex mt now es = some idx) :
    idx.categories = catsSpec "" es := by
  rw [wfRoot, Bool.and_eq_true] at hwf
  have hnodup : (es.map Entry.name).Nodup := by simpa using hwf.1
  have hwfn : wfNames es = true := hwf.2
  have h := indexEntries_cats mt es "" (emptyIndex now) idx hidx (Or.inl rfl)
    (by
      intro k _ hmem
      simp [emptyIndex, keysOf] at hmem)
    (keys_catsSpec_nodup es hnodup hwfn "")
    hwfn
  rw [h, bumpCats, if_pos rfl]
  rw [show (emptyIndex now).categories = [] from rfl, List.nil_append]

/-- Witness for C4's amended theorem at a concrete nested root. -/
theorem c4_categories_per_directory_witness :
    wfRoot [Entry.dir "a" [Entry.dir "b" [Entry.file "f.md" ""]]] = true ∧
    buildIndex (fun _ => 0) "T"
        [Entry.dir "a" [Entry.dir "b" [Entry.file "f.md" ""]]] =
      some ⟨"T", [("a/b/f.md", ⟨"a/b", 0, 0, "f", [], ""⟩)],
        [("a", []), ("a/b", ["a/b/f.md"])], []⟩ ∧
    (⟨"T", [("a/b/f.md", ⟨"a/b", 0, 0, "f", [], ""⟩)],
        [("a", []), ("a/b", ["a/b/f.md"])], []⟩ : Index).categories =
      catsSpec "" [Entry.dir "a" [Entry.dir "b" [Entry.file "f.md" ""]]] := by
  have hwf : wfRoot [Entry.dir "a" [Entry.dir "b" [Entry.file "f.md" ""]]] = true := by
    simp [wfRoot, wfNames, validName]
  exact ⟨hwf, buildIndex_nested_example,
    c4_categories_per_directory _ (fun _ => 0) "T" _ hwf buildIndex_nested_example⟩

end MemoryBank
